import Mathlib

/-!
Verification of the context-collapsing / probability-composition engine and
the disaggregation binning engine of the oq-engine repository.

The Python source is embedded shallowly: numpy arrays become lists of
rationals, probabilities are rationals or reals, fallible code returns
Except, and the mutable per-site probability maps become association lists
threaded through folds.
-/

namespace OQ

open Polynomial

/-! ## PMF convolution (contexts.py, combine_pmf)

Python source:

    def combine_pmf(o1, o2):
        n1 = len(o1)
        n2 = len(o2)
        o = numpy.zeros(n1 + n2 - 1)
        for i in range(n1):
            for j in range(n2):
                o[i + j] += o1[i] * o2[j]
        return o

The double accumulation loop is rendered as a double finite sum with an
indicator on the target index. -/

/-- Shallow embedding of contexts.py `combine_pmf`: discrete convolution of
two occurrence-count PMFs. -/
def combine_pmf (o1 o2 : List ℚ) : List ℚ :=
  (List.range (o1.length + o2.length - 1)).map (fun k =>
    ∑ i ∈ Finset.range o1.length, ∑ j ∈ Finset.range o2.length,
      if i + j = k then o1.getD i 0 * o2.getD j 0 else 0)

/-- The generating polynomial of a PMF given as a list of coefficients. -/
noncomputable def toPoly (l : List ℚ) : Polynomial ℚ :=
  ∑ i ∈ Finset.range l.length, C (l.getD i 0) * X ^ i

lemma getD_eq_zero_of_le {l : List ℚ} {k : ℕ} (h : l.length ≤ k) :
    l.getD k 0 = 0 := by
  rw [List.getD_eq_getElem?_getD, List.getElem?_eq_none h]
  rfl

lemma toPoly_coeff (l : List ℚ) (k : ℕ) : (toPoly l).coeff k = l.getD k 0 := by
  unfold toPoly
  rw [Polynomial.finset_sum_coeff]
  simp only [Polynomial.coeff_C_mul, Polynomial.coeff_X_pow, mul_ite, mul_one,
    mul_zero]
  rw [Finset.sum_ite_eq (Finset.range l.length) k (fun i => l.getD i 0)]
  by_cases h : k < l.length
  · simp [h]
  · simp only [Finset.mem_range, h, if_false]
    rw [getD_eq_zero_of_le (by omega)]

lemma combine_pmf_length (o1 o2 : List ℚ) :
    (combine_pmf o1 o2).length = o1.length + o2.length - 1 := by
  simp [combine_pmf]

lemma combine_pmf_getD (o1 o2 : List ℚ) (k : ℕ) :
    (combine_pmf o1 o2).getD k 0 =
      ∑ ij ∈ Finset.antidiagonal k, o1.getD ij.1 0 * o2.getD ij.2 0 := by
  have hzero : ∀ ij ∈ Finset.antidiagonal k,
      ij ∉ (Finset.range o1.length ×ˢ Finset.range o2.length).filter
        (fun p => p.1 + p.2 = k) →
      o1.getD ij.1 0 * o2.getD ij.2 0 = 0 := by
    rintro ⟨i, j⟩ hij hnot
    rw [Finset.mem_antidiagonal] at hij
    simp only [Finset.mem_filter, Finset.mem_product, Finset.mem_range] at hnot
    by_cases h1 : i < o1.length
    · have h2 : o2.length ≤ j := by
        by_contra hc
        exact hnot ⟨⟨h1, by omega⟩, hij⟩
      rw [getD_eq_zero_of_le h2, mul_zero]
    · rw [getD_eq_zero_of_le (by omega), zero_mul]
  have hsub : (Finset.range o1.length ×ˢ Finset.range o2.length).filter
      (fun p => p.1 + p.2 = k) ⊆ Finset.antidiagonal k := by
    rintro ⟨i, j⟩ hp
    simp only [Finset.mem_filter] at hp
    rw [Finset.mem_antidiagonal]
    exact hp.2
  have key : (∑ i ∈ Finset.range o1.length, ∑ j ∈ Finset.range o2.length,
      if i + j = k then o1.getD i 0 * o2.getD j 0 else 0) =
      ∑ ij ∈ Finset.antidiagonal k, o1.getD ij.1 0 * o2.getD ij.2 0 := by
    rw [← Finset.sum_product']
    rw [← Finset.sum_filter]
    exact Finset.sum_subset hsub (fun x hx hnx => hzero x hx hnx)
  by_cases hk : k < o1.length + o2.length - 1
  · rw [combine_pmf, List.getD_eq_getElem?_getD, List.getElem?_map,
      List.getElem?_range hk]
    simpa using key
  · rw [getD_eq_zero_of_le (by rw [combine_pmf_length]; omega)]
    rw [← key]
    symm
    apply Finset.sum_eq_zero
    intro i hi
    apply Finset.sum_eq_zero
    intro j hj
    simp only [Finset.mem_range] at hi hj
    have : ¬ (i + j = k) := by omega
    simp [this]

/-- The generating polynomial of a convolution is the product of the
generating polynomials. -/
lemma toPoly_combine_pmf (o1 o2 : List ℚ) :
    toPoly (combine_pmf o1 o2) = toPoly o1 * toPoly o2 := by
  apply Polynomial.ext
  intro k
  rw [toPoly_coeff, combine_pmf_getD, Polynomial.coeff_mul]
  apply Finset.sum_congr rfl
  intro ij _
  rw [toPoly_coeff, toPoly_coeff]


lemma list_eq_of_getD {l1 l2 : List ℚ} (hlen : l1.length = l2.length)
    (h : ∀ k, l1.getD k 0 = l2.getD k 0) : l1 = l2 := by
  apply List.ext_getElem hlen
  intro i h1 h2
  have := h i
  rwa [List.getD_eq_getElem l1 0 h1, List.getD_eq_getElem l2 0 h2] at this

lemma list_sum_eq_range_getD (l : List ℚ) :
    l.sum = ∑ i ∈ Finset.range l.length, l.getD i 0 := by
  induction l with
  | nil => simp
  | cons x xs ih =>
    rw [List.sum_cons, List.length_cons, Finset.sum_range_succ']
    simp only [List.getD_cons_succ, List.getD_cons_zero]
    rw [← ih]
    ring

lemma toPoly_eval_one (l : List ℚ) : (toPoly l).eval 1 = l.sum := by
  unfold toPoly
  rw [Polynomial.eval_finset_sum, list_sum_eq_range_getD]
  apply Finset.sum_congr rfl
  intro i _
  simp

lemma combine_pmf_comm (o1 o2 : List ℚ) :
    combine_pmf o1 o2 = combine_pmf o2 o1 := by
  apply list_eq_of_getD
  · rw [combine_pmf_length, combine_pmf_length]
    omega
  · intro k
    rw [combine_pmf_getD, combine_pmf_getD]
    rw [← Finset.Nat.sum_antidiagonal_swap
      (f := fun p => o2.getD p.1 0 * o1.getD p.2 0)]
    apply Finset.sum_congr rfl
    intro ij _
    simp [Prod.swap, mul_comm]

lemma combine_pmf_sum (o1 o2 : List ℚ) :
    (combine_pmf o1 o2).sum = o1.sum * o2.sum := by
  rw [← toPoly_eval_one, ← toPoly_eval_one, ← toPoly_eval_one,
    toPoly_combine_pmf, Polynomial.eval_mul]

lemma combine_pmf_assoc (o1 o2 o3 : List ℚ)
    (h1 : o1 ≠ []) (h2 : o2 ≠ []) (h3 : o3 ≠ []) :
    combine_pmf (combine_pmf o1 o2) o3 = combine_pmf o1 (combine_pmf o2 o3) := by
  have n1 : 0 < o1.length := List.length_pos.mpr h1
  have n2 : 0 < o2.length := List.length_pos.mpr h2
  have n3 : 0 < o3.length := List.length_pos.mpr h3
  apply list_eq_of_getD
  · rw [combine_pmf_length, combine_pmf_length, combine_pmf_length,
      combine_pmf_length]
    omega
  · intro k
    have l : (combine_pmf (combine_pmf o1 o2) o3).getD k 0 =
        ((toPoly o1 * toPoly o2) * toPoly o3).coeff k := by
      rw [← toPoly_combine_pmf, ← toPoly_combine_pmf, toPoly_coeff]
    have r : (combine_pmf o1 (combine_pmf o2 o3)).getD k 0 =
        (toPoly o1 * (toPoly o2 * toPoly o3)).coeff k := by
      rw [← toPoly_combine_pmf, ← toPoly_combine_pmf, toPoly_coeff]
    rw [l, r, mul_assoc]

/-- C2: `combine_pmf` has the convolution length and entries, is commutative
and associative on nonempty PMFs, and preserves total mass 1. -/
theorem combine_pmf_spec (o1 o2 o3 : List ℚ)
    (h1 : o1 ≠ []) (h2 : o2 ≠ []) (h3 : o3 ≠ []) :
    (combine_pmf o1 o2).length = o1.length + o2.length - 1
    ∧ (∀ k, (combine_pmf o1 o2).getD k 0 =
        ∑ ij ∈ Finset.antidiagonal k, o1.getD ij.1 0 * o2.getD ij.2 0)
    ∧ combine_pmf o1 o2 = combine_pmf o2 o1
    ∧ combine_pmf (combine_pmf o1 o2) o3 = combine_pmf o1 (combine_pmf o2 o3)
    ∧ (o1.sum = 1 → o2.sum = 1 → (combine_pmf o1 o2).sum = 1) :=
  ⟨combine_pmf_length o1 o2, combine_pmf_getD o1 o2,
    combine_pmf_comm o1 o2, combine_pmf_assoc o1 o2 o3 h1 h2 h3,
    fun hs1 hs2 => by rw [combine_pmf_sum, hs1, hs2, one_mul]⟩

/-- Witness for C2 at the doctest input of combine_pmf:
combine_pmf([.99, .01], [.98, .02]) = [.9702, .0296, .0002]. -/
theorem combine_pmf_spec_witness :
    combine_pmf [99/100, 1/100] [98/100, 2/100] =
      combine_pmf [98/100, 2/100] [99/100, 1/100]
    ∧ (combine_pmf [99/100, 1/100] [98/100, 2/100]).sum = 1 := by
  have h := combine_pmf_spec [99/100, 1/100] [98/100, 2/100] [1]
    (by decide) (by decide) (by decide)
  exact ⟨h.2.2.1, h.2.2.2.2 (by norm_num) (by norm_num)⟩

/-! ## Rupture contexts and collapsing (contexts.py)

A RuptureContext carries the rupture parameters, the per-site distance
arrays, and exactly one of an occurrence rate (parametric, Poissonian) or
an occurrence-count PMF (non-parametric).  In the Python code a
non-parametric context is recognised by `numpy.isnan(ctx.occurrence_rate)`;
here the NaN marker becomes `none`. -/

structure RuptureContext where
  mag : ℚ
  rup_params : List ℚ
  dist_arrays : List (String × List ℚ)
  occurrence_rate : Option ℚ
  probs_occur : List ℚ
  sids : List ℕ
  weight : ℝ

/-- Round half to even (the rounding used by numpy.round). -/
def roundHalfEven (x : ℚ) : ℤ :=
  if x - ⌊x⌋ < 1/2 then ⌊x⌋
  else if 1/2 < x - ⌊x⌋ then ⌊x⌋ + 1
  else if 2 ∣ ⌊x⌋ then ⌊x⌋ else ⌊x⌋ + 1

/-- numpy.round(x, d): round to d decimal digits, half to even. -/
def nround (d : ℕ) (x : ℚ) : ℚ := (roundHalfEven (x * 10 ^ d) : ℚ) / 10 ^ d

/-- Shallow embedding of the `params` grouping key closed over in
ContextMaker.collapse_the_ctxs: at collapse_level >= 3 only the magnitude
with distances rounded to 1 km (rnd, 0 digits), otherwise all required
rupture parameters with distances rounded to 100 m (1 digit). -/
def params_key (collapse_level : ℕ) (reqdists : List String)
    (ctx : RuptureContext) : List ℚ :=
  let rnd : ℕ := if 3 ≤ collapse_level then 0 else 1
  let rrp : List ℚ :=
    if 3 ≤ collapse_level then [ctx.mag] else ctx.mag :: ctx.rup_params
  rrp ++ (reqdists.map (fun dst =>
    ((ctx.dist_arrays.lookup dst).getD []).map (nround rnd))).flatten

/-- functools.reduce of combine_pmf over a nonempty list of PMFs
(contexts.py `_collapse`, non-parametric branch). -/
def reduce_combine : List (List ℚ) → List ℚ
  | [] => []
  | p :: ps => ps.foldl combine_pmf p

/-- Copy a context, replacing its occurrence rate (copy.copy followed by
assignment of .occurrence_rate in `_collapse`). -/
def set_rate (c : RuptureContext) (r : ℚ) : RuptureContext :=
  { c with occurrence_rate := some r }

/-- Copy a context, replacing its occurrence PMF (copy.copy followed by
assignment of .probs_occur in `_collapse`). -/
def set_probs (c : RuptureContext) (p : List ℚ) : RuptureContext :=
  { c with probs_occur := p }

/-- The parametric branch of contexts.py `_collapse`: two or more
parametric members merge into a copy of the first one holding the summed
occurrence rate. -/
def collapse_parametric (prups : List RuptureContext) : List RuptureContext :=
  if 1 < prups.length then
    match prups with
    | [] => []
    | c :: _ => [set_rate c ((prups.map (fun r => r.occurrence_rate.getD 0)).sum)]
  else prups

/-- The non-parametric branch of contexts.py `_collapse`: two or more
non-parametric members merge into a copy of the first one holding the
convolved occurrence PMF. -/
def collapse_nonparametric (nrups : List RuptureContext) :
    List RuptureContext :=
  if 1 < nrups.length then
    match nrups with
    | [] => []
    | c :: _ => [set_probs c (reduce_combine (nrups.map (fun n => n.probs_occur)))]
  else nrups

/-- Shallow embedding of contexts.py `_collapse`: merge the parametric
members into one context holding the summed occurrence rate and the
non-parametric members into one context holding the convolved PMF;
parametric and non-parametric members never merge with each other. -/
def _collapse (ctxs : List RuptureContext) : List RuptureContext :=
  if ctxs.length < 2 then ctxs
  else
    collapse_parametric (ctxs.filter (fun c => c.occurrence_rate.isSome))
      ++ collapse_nonparametric
        (ctxs.filter (fun c => c.occurrence_rate.isNone))

/-- Modelled from the spec: baselib.general.groupby (openquake.baselib is
not under src/) groups the contexts by the value of the key function; only
the partition into groups matters downstream. -/
def groupby_values (key : RuptureContext → List ℚ)
    (ctxs : List RuptureContext) : List (List RuptureContext) :=
  ((ctxs.map key).dedup).map (fun k => ctxs.filter (fun c => key c = k))

/-- Shallow embedding of ContextMaker.collapse_the_ctxs: group the contexts
by the rounding/grouping key and apply `_collapse` within each group. -/
def collapse_the_ctxs (collapse_level : ℕ) (reqdists : List String)
    (ctxs : List RuptureContext) : List RuptureContext :=
  if ctxs.length = 1 then ctxs
  else ((groupby_values (params_key collapse_level reqdists) ctxs).map
    _collapse).flatten

/-- numpy.clip(x, 0., 1.). -/
def clip01 (x : ℝ) : ℝ := max 0 (min 1 x)

/-- Modelled from the spec: the Poissonian temporal occurrence model
(module openquake.hazardlib.tom, not under src/); section 3 of the spec
selects the "Poissonian ... no-exceedance formula", which is
exp(-occurrence_rate * time_span * poe). -/
noncomputable def poissonPNE (time_span rate poe : ℝ) : ℝ :=
  Real.exp (-rate * time_span * poe)

/-- Shallow embedding of RuptureContext.get_probability_no_exceedance for a
scalar conditional exceedance probability: the non-parametric branch sums
probs_occur[i] * (1 - poe)^i and clips the result to [0, 1]; the
parametric branch delegates to the temporal occurrence model. -/
noncomputable def get_probability_no_exceedance (time_span : ℝ) (ctx : RuptureContext)
    (poe : ℝ) : ℝ :=
  match ctx.occurrence_rate with
  | none => clip01 (∑ i ∈ Finset.range ctx.probs_occur.length,
      (ctx.probs_occur.getD i 0 : ℝ) * (1 - poe) ^ i)
  | some rate => poissonPNE time_span (rate : ℝ) poe

/-- Composition of no-exceedance probabilities under the independent
ruptures rule (the `probs *= pne` accumulation of PmapMaker._update_pmap
and _make_pmap). -/
noncomputable def composed_pne (time_span : ℝ) (ctxs : List RuptureContext) (poe : ℝ) : ℝ :=
  (ctxs.map (fun c => get_probability_no_exceedance time_span c poe)).prod

/-! ## Lemmas for collapse invariance (C1) and clipping (C10) -/

/-- A well-formed occurrence PMF: nonnegative entries with mass at most 1. -/
def validPMF (l : List ℚ) : Prop := (∀ q ∈ l, 0 ≤ q) ∧ l.sum ≤ 1

lemma clip01_eq_self {x : ℝ} (h0 : 0 ≤ x) (h1 : x ≤ 1) : clip01 x = x := by
  unfold clip01
  rw [min_eq_right h1, max_eq_right h0]

lemma clip01_mem (x : ℝ) : 0 ≤ clip01 x ∧ clip01 x ≤ 1 := by
  unfold clip01
  constructor
  · exact le_max_left 0 _
  · rcases le_total 1 x with h | h
    · simp [min_eq_left h]
    · rw [min_eq_right h]
      rcases le_total 0 x with h0 | h0
      · rw [max_eq_right h0]; exact h
      · rw [max_eq_left h0]; linarith

lemma getD_nonneg {l : List ℚ} (h : ∀ q ∈ l, 0 ≤ q) (k : ℕ) :
    0 ≤ l.getD k 0 := by
  by_cases hk : k < l.length
  · rw [List.getD_eq_getElem l 0 hk]
    exact h _ (List.getElem_mem hk)
  · rw [getD_eq_zero_of_le (by omega)]

lemma combine_pmf_nonneg {o1 o2 : List ℚ} (h1 : ∀ q ∈ o1, 0 ≤ q)
    (h2 : ∀ q ∈ o2, 0 ≤ q) : ∀ q ∈ combine_pmf o1 o2, 0 ≤ q := by
  intro q hq
  rw [combine_pmf, List.mem_map] at hq
  obtain ⟨k, _, rfl⟩ := hq
  apply Finset.sum_nonneg
  intro i _
  apply Finset.sum_nonneg
  intro j _
  by_cases hij : i + j = k
  · simp only [hij, if_true]
    exact mul_nonneg (getD_nonneg h1 i) (getD_nonneg h2 j)
  · simp [hij]

lemma list_sum_nonneg {l : List ℚ} (h : ∀ q ∈ l, 0 ≤ q) : 0 ≤ l.sum := by
  induction l with
  | nil => simp
  | cons x xs ih =>
    rw [List.sum_cons]
    have hx := h x (List.mem_cons_self x xs)
    have := ih (fun q hq => h q (List.mem_cons_of_mem x hq))
    linarith

lemma validPMF_combine {o1 o2 : List ℚ} (h1 : validPMF o1)
    (h2 : validPMF o2) : validPMF (combine_pmf o1 o2) := by
  refine ⟨combine_pmf_nonneg h1.1 h2.1, ?_⟩
  rw [combine_pmf_sum]
  have s1 : 0 ≤ o1.sum := list_sum_nonneg h1.1
  have s2 : 0 ≤ o2.sum := list_sum_nonneg h2.1
  calc o1.sum * o2.sum ≤ 1 * 1 := by
        apply mul_le_mul h1.2 h2.2 s2 zero_le_one
    _ = 1 := one_mul 1

lemma raw_eq_aeval (probs : List ℚ) (y : ℝ) :
    (∑ i ∈ Finset.range probs.length, (probs.getD i 0 : ℝ) * y ^ i)
      = Polynomial.aeval y (toPoly probs) := by
  unfold toPoly
  rw [map_sum]
  apply Finset.sum_congr rfl
  intro i _
  rw [map_mul, map_pow, Polynomial.aeval_C, Polynomial.aeval_X,
    eq_ratCast (algebraMap ℚ ℝ) (probs.getD i 0)]

lemma cast_list_sum (l : List ℚ) :
    ((l.sum : ℚ) : ℝ) = ∑ i ∈ Finset.range l.length, (l.getD i 0 : ℝ) := by
  rw [list_sum_eq_range_getD]
  push_cast
  rfl

lemma raw_bounds {probs : List ℚ} (hv : validPMF probs) {y : ℝ}
    (hy0 : 0 ≤ y) (hy1 : y ≤ 1) :
    0 ≤ (∑ i ∈ Finset.range probs.length, (probs.getD i 0 : ℝ) * y ^ i)
    ∧ (∑ i ∈ Finset.range probs.length, (probs.getD i 0 : ℝ) * y ^ i) ≤ 1 := by
  have hnn : ∀ i, (0:ℝ) ≤ (probs.getD i 0 : ℝ) := by
    intro i
    exact_mod_cast getD_nonneg hv.1 i
  constructor
  · apply Finset.sum_nonneg
    intro i _
    exact mul_nonneg (hnn i) (pow_nonneg hy0 i)
  · calc (∑ i ∈ Finset.range probs.length, (probs.getD i 0 : ℝ) * y ^ i)
        ≤ ∑ i ∈ Finset.range probs.length, (probs.getD i 0 : ℝ) := by
          apply Finset.sum_le_sum
          intro i _
          calc (probs.getD i 0 : ℝ) * y ^ i
              ≤ (probs.getD i 0 : ℝ) * 1 := by
                apply mul_le_mul_of_nonneg_left _ (hnn i)
                exact pow_le_one₀ hy0 hy1
            _ = (probs.getD i 0 : ℝ) := mul_one _
      _ = ((probs.sum : ℚ) : ℝ) := (cast_list_sum probs).symm
      _ ≤ 1 := by exact_mod_cast hv.2

lemma toPoly_foldl_combine (init : List ℚ) (rest : List (List ℚ)) :
    toPoly (rest.foldl combine_pmf init) = toPoly init * (rest.map toPoly).prod := by
  induction rest generalizing init with
  | nil => simp
  | cons q rest ih =>
    rw [List.foldl_cons, ih (combine_pmf init q), toPoly_combine_pmf,
      List.map_cons, List.prod_cons, mul_assoc]

lemma toPoly_reduce_combine {ps : List (List ℚ)} (h : ps ≠ []) :
    toPoly (reduce_combine ps) = (ps.map toPoly).prod := by
  match ps with
  | [] => exact absurd rfl h
  | p :: rest =>
    rw [reduce_combine, toPoly_foldl_combine, List.map_cons, List.prod_cons]

lemma validPMF_foldl_combine {init : List ℚ} {rest : List (List ℚ)}
    (h0 : validPMF init) (h : ∀ p ∈ rest, validPMF p) :
    validPMF (rest.foldl combine_pmf init) := by
  induction rest generalizing init with
  | nil => exact h0
  | cons q rest ih =>
    rw [List.foldl_cons]
    exact ih (validPMF_combine h0 (h q (List.mem_cons_self q rest)))
      (fun p hp => h p (List.mem_cons_of_mem q hp))

lemma validPMF_reduce_combine {ps : List (List ℚ)} (hne : ps ≠ [])
    (h : ∀ p ∈ ps, validPMF p) : validPMF (reduce_combine ps) := by
  match ps with
  | [] => exact absurd rfl hne
  | p :: rest =>
    rw [reduce_combine]
    exact validPMF_foldl_combine (h p (List.mem_cons_self p rest))
      (fun q hq => h q (List.mem_cons_of_mem p hq))

lemma prod_poisson (rs : List ℚ) (t poe : ℝ) :
    (rs.map (fun (r : ℚ) => poissonPNE t (r : ℝ) poe)).prod
      = poissonPNE t ((rs.sum : ℚ) : ℝ) poe := by
  induction rs with
  | nil =>
    simp [poissonPNE]
  | cons r rest ih =>
    rw [List.map_cons, List.prod_cons, ih, List.sum_cons]
    unfold poissonPNE
    rw [← Real.exp_add]
    push_cast
    ring_nf

lemma composed_append (t poe : ℝ) (l1 l2 : List RuptureContext) :
    composed_pne t (l1 ++ l2) poe
      = composed_pne t l1 poe * composed_pne t l2 poe := by
  unfold composed_pne
  rw [List.map_append, List.prod_append]

lemma composed_perm (t poe : ℝ) {l1 l2 : List RuptureContext}
    (h : l1.Perm l2) : composed_pne t l1 poe = composed_pne t l2 poe := by
  unfold composed_pne
  exact (h.map _).prod_eq

lemma pne_of_some (t poe : ℝ) {ctx : RuptureContext} {r : ℚ}
    (h : ctx.occurrence_rate = some r) :
    get_probability_no_exceedance t ctx poe = poissonPNE t (r : ℝ) poe := by
  unfold get_probability_no_exceedance
  rw [h]

lemma pne_of_none (t poe : ℝ) {ctx : RuptureContext}
    (h : ctx.occurrence_rate = none) (hv : validPMF ctx.probs_occur)
    (h0 : 0 ≤ poe) (h1 : poe ≤ 1) :
    get_probability_no_exceedance t ctx poe
      = Polynomial.aeval (1 - poe) (toPoly ctx.probs_occur) := by
  unfold get_probability_no_exceedance
  rw [h]
  have hb := raw_bounds hv (by linarith : (0:ℝ) ≤ 1 - poe)
    (by linarith : (1:ℝ) - poe ≤ 1)
  rw [clip01_eq_self hb.1 hb.2, raw_eq_aeval]

lemma partition_perm (ctxs : List RuptureContext) :
    (ctxs.filter (fun c => c.occurrence_rate.isSome)
      ++ ctxs.filter (fun c => c.occurrence_rate.isNone)).Perm ctxs := by
  have h := List.filter_append_perm
    (fun c : RuptureContext => c.occurrence_rate.isSome) ctxs
  have hcongr : ctxs.filter (fun c => !c.occurrence_rate.isSome)
      = ctxs.filter (fun c => c.occurrence_rate.isNone) := by
    apply List.filter_congr
    intro c _
    cases c.occurrence_rate <;> rfl
  rwa [hcongr] at h

lemma composed_collapse_parametric (t poe : ℝ) (P : List RuptureContext)
    (hP : ∀ c ∈ P, c.occurrence_rate.isSome) :
    composed_pne t (collapse_parametric P) poe = composed_pne t P poe := by
  unfold collapse_parametric
  by_cases hlen : 1 < P.length
  · rw [if_pos hlen]
    match P, hP with
    | c :: rest, hP =>
      have hmap : ∀ x ∈ c :: rest, get_probability_no_exceedance t x poe
          = poissonPNE t ((x.occurrence_rate.getD 0 : ℚ) : ℝ) poe := by
        intro x hx
        obtain ⟨r, hr⟩ := Option.isSome_iff_exists.mp (hP x hx)
        rw [pne_of_some t poe hr, hr]
        rfl
      have hL : composed_pne t
          [set_rate c (((c :: rest).map (fun r => r.occurrence_rate.getD 0)).sum)] poe
          = poissonPNE t
            ((((c :: rest).map (fun r => r.occurrence_rate.getD 0)).sum : ℚ) : ℝ)
            poe := by
        unfold composed_pne
        rw [List.map_singleton, List.prod_singleton]
        exact pne_of_some t poe rfl
      rw [hL]
      unfold composed_pne
      rw [List.map_congr_left hmap]
      have hcomp : (c :: rest).map (fun x => poissonPNE t
          ((x.occurrence_rate.getD 0 : ℚ) : ℝ) poe)
          = ((c :: rest).map (fun r => r.occurrence_rate.getD 0)).map
            (fun (r : ℚ) => poissonPNE t (r : ℝ) poe) := by
        rw [List.map_map]
        rfl
      rw [hcomp, prod_poisson]
  · rw [if_neg hlen]

lemma composed_collapse_nonparametric (t poe : ℝ) (N : List RuptureContext)
    (hN : ∀ c ∈ N, c.occurrence_rate = none)
    (hv : ∀ c ∈ N, validPMF c.probs_occur)
    (h0 : 0 ≤ poe) (h1 : poe ≤ 1) :
    composed_pne t (collapse_nonparametric N) poe = composed_pne t N poe := by
  unfold collapse_nonparametric
  by_cases hlen : 1 < N.length
  · rw [if_pos hlen]
    match N, hN, hv with
    | c :: rest, hN, hv =>
      have hmapne : (c :: rest).map (fun n => n.probs_occur) ≠ [] := by
        simp
      have hvmap : ∀ p ∈ (c :: rest).map (fun n => n.probs_occur),
          validPMF p := by
        intro p hp
        obtain ⟨x, hx, rfl⟩ := List.mem_map.mp hp
        exact hv x hx
      have hvred : validPMF
          (reduce_combine ((c :: rest).map (fun n => n.probs_occur))) :=
        validPMF_reduce_combine hmapne hvmap
      have hnone : (set_probs c
          (reduce_combine ((c :: rest).map (fun n => n.probs_occur)))).occurrence_rate
          = none := hN c (List.mem_cons_self c rest)
      have hL : composed_pne t
          [set_probs c (reduce_combine ((c :: rest).map (fun n => n.probs_occur)))] poe
          = Polynomial.aeval (1 - poe)
            (toPoly (reduce_combine ((c :: rest).map (fun n => n.probs_occur)))) := by
        unfold composed_pne
        rw [List.map_singleton, List.prod_singleton]
        exact pne_of_none t poe hnone hvred h0 h1
      rw [hL, toPoly_reduce_combine hmapne]
      unfold composed_pne
      have hmap : ∀ x ∈ c :: rest, get_probability_no_exceedance t x poe
          = Polynomial.aeval (1 - poe) (toPoly x.probs_occur) := by
        intro x hx
        exact pne_of_none t poe (hN x hx) (hv x hx) h0 h1
      rw [List.map_congr_left hmap]
      have hcomp : (c :: rest).map
          (fun x => Polynomial.aeval (1 - poe) (toPoly x.probs_occur))
          = (((c :: rest).map (fun n => n.probs_occur)).map toPoly).map
            (Polynomial.aeval (1 - poe)) := by
        rw [List.map_map, List.map_map]
        rfl
      rw [hcomp, ← map_list_prod (Polynomial.aeval ((1:ℝ) - poe))]
  · rw [if_neg hlen]

lemma composed_collapse (t poe : ℝ) (ctxs : List RuptureContext)
    (hv : ∀ c ∈ ctxs, c.occurrence_rate = none → validPMF c.probs_occur)
    (h0 : 0 ≤ poe) (h1 : poe ≤ 1) :
    composed_pne t (_collapse ctxs) poe = composed_pne t ctxs poe := by
  unfold _collapse
  by_cases hlen : ctxs.length < 2
  · rw [if_pos hlen]
  · rw [if_neg hlen, composed_append]
    rw [composed_collapse_parametric t poe _ (fun c hc =>
      (List.mem_filter.mp hc).2)]
    rw [composed_collapse_nonparametric t poe _
      (fun c hc => Option.isNone_iff_eq_none.mp (List.mem_filter.mp hc).2)
      (fun c hc => hv c (List.mem_of_mem_filter hc)
        (Option.isNone_iff_eq_none.mp (List.mem_filter.mp hc).2))
      h0 h1]
    rw [← composed_append]
    exact composed_perm t poe (partition_perm ctxs)

lemma collapse_parametric_length (P : List RuptureContext) :
    (collapse_parametric P).length ≤ P.length := by
  unfold collapse_parametric
  by_cases hlen : 1 < P.length
  · rw [if_pos hlen]
    match P, hlen with
    | c :: rest, hlen => simp
  · rw [if_neg hlen]

lemma collapse_nonparametric_length (N : List RuptureContext) :
    (collapse_nonparametric N).length ≤ N.length := by
  unfold collapse_nonparametric
  by_cases hlen : 1 < N.length
  · rw [if_pos hlen]
    match N, hlen with
    | c :: rest, hlen => simp
  · rw [if_neg hlen]

lemma _collapse_length (ctxs : List RuptureContext) :
    (_collapse ctxs).length ≤ ctxs.length := by
  unfold _collapse
  by_cases hlen : ctxs.length < 2
  · rw [if_pos hlen]
  · rw [if_neg hlen, List.length_append]
    have hp := collapse_parametric_length
      (ctxs.filter (fun c => c.occurrence_rate.isSome))
    have hn := collapse_nonparametric_length
      (ctxs.filter (fun c => c.occurrence_rate.isNone))
    have htot := (partition_perm ctxs).length_eq
    rw [List.length_append] at htot
    omega

lemma grouped_filters_perm {K : Type} [DecidableEq K]
    (key : RuptureContext → K) (ks : List K) (l : List RuptureContext)
    (hnd : ks.Nodup) (hcov : ∀ a ∈ l, key a ∈ ks) :
    ((ks.map (fun k => l.filter (fun c => key c = k))).flatten).Perm l := by
  induction ks generalizing l with
  | nil =>
    cases l with
    | nil => simp
    | cons a rest =>
      exact absurd (hcov a (List.mem_cons_self a rest)) (List.not_mem_nil _)
  | cons k ks ih =>
    rw [List.map_cons, List.flatten_cons]
    have hknotin : k ∉ ks := (List.nodup_cons.mp hnd).1
    have hrest : ks.map (fun k2 => l.filter (fun c => key c = k2))
        = ks.map (fun k2 =>
          (l.filter (fun c => ¬ key c = k)).filter (fun c => key c = k2)) := by
      apply List.map_congr_left
      intro k2 hk2
      rw [List.filter_comm]
      symm
      rw [List.filter_eq_self]
      intro c hc
      have hck2 : key c = k2 := by
        have := (List.mem_filter.mp hc).2
        simpa using this
      have hne : ¬ (k2 = k) := fun h => hknotin (h ▸ hk2)
      simp [hck2, hne]
    rw [hrest]
    have hcov2 : ∀ a ∈ l.filter (fun c => ¬ key c = k), key a ∈ ks := by
      intro a ha
      have h1 := List.mem_of_mem_filter ha
      have h2 := (List.mem_filter.mp ha).2
      simp only [decide_eq_true_eq] at h2
      have := hcov a h1
      rw [List.mem_cons] at this
      rcases this with h | h
      · exact absurd h h2
      · exact h
    have hperm2 := ih (l.filter (fun c => ¬ key c = k))
      (List.nodup_cons.mp hnd).2 hcov2
    have := List.Perm.append_left (l.filter (fun c => key c = k)) hperm2
    apply this.trans
    have hfp := List.filter_append_perm (fun c => decide (key c = k)) l
    have hcongr : l.filter (fun c => !(decide (key c = k)))
        = l.filter (fun c => ¬ key c = k) := by
      apply List.filter_congr
      intro c _
      simp
    rwa [hcongr] at hfp

lemma groupby_flatten_perm (key : RuptureContext → List ℚ)
    (ctxs : List RuptureContext) :
    ((groupby_values key ctxs).flatten).Perm ctxs := by
  unfold groupby_values
  exact grouped_filters_perm key ((ctxs.map key).dedup) ctxs
    (List.nodup_dedup _)
    (fun a ha => List.mem_dedup.mpr (List.mem_map_of_mem key ha))

lemma composed_flatten (t poe : ℝ) (L : List (List RuptureContext)) :
    composed_pne t L.flatten poe
      = (L.map (fun g => composed_pne t g poe)).prod := by
  induction L with
  | nil => simp [composed_pne]
  | cons g L ih =>
    rw [List.flatten_cons, composed_append, ih, List.map_cons,
      List.prod_cons]

lemma composed_collapse_the_ctxs (t poe : ℝ) (lvl : ℕ) (rd : List String)
    (ctxs : List RuptureContext)
    (hv : ∀ c ∈ ctxs, c.occurrence_rate = none → validPMF c.probs_occur)
    (h0 : 0 ≤ poe) (h1 : poe ≤ 1) :
    composed_pne t (collapse_the_ctxs lvl rd ctxs) poe
      = composed_pne t ctxs poe := by
  unfold collapse_the_ctxs
  by_cases hone : ctxs.length = 1
  · rw [if_pos hone]
  · rw [if_neg hone, composed_flatten]
    have hmem : ∀ g ∈ groupby_values (params_key lvl rd) ctxs,
        ∀ c ∈ g, c ∈ ctxs := by
      intro g hg c hc
      unfold groupby_values at hg
      obtain ⟨k, _, rfl⟩ := List.mem_map.mp hg
      exact List.mem_of_mem_filter hc
    have hcong : (groupby_values (params_key lvl rd) ctxs).map
          (fun g => composed_pne t (_collapse g) poe)
        = (groupby_values (params_key lvl rd) ctxs).map
          (fun g => composed_pne t g poe) := by
      apply List.map_congr_left
      intro g hg
      exact composed_collapse t poe g
        (fun c hc hn => hv c (hmem g hg c hc) hn) h0 h1
    have hmm : ((groupby_values (params_key lvl rd) ctxs).map _collapse).map
          (fun g => composed_pne t g poe)
        = (groupby_values (params_key lvl rd) ctxs).map
          (fun g => composed_pne t (_collapse g) poe) := by
      rw [List.map_map]
      rfl
    rw [hmm, hcong, ← composed_flatten]
    exact composed_perm t poe (groupby_flatten_perm (params_key lvl rd) ctxs)

lemma collapse_the_ctxs_length (lvl : ℕ) (rd : List String)
    (ctxs : List RuptureContext) :
    (collapse_the_ctxs lvl rd ctxs).length ≤ ctxs.length := by
  unfold collapse_the_ctxs
  by_cases hone : ctxs.length = 1
  · rw [if_pos hone]
  · rw [if_neg hone]
    rw [List.length_flatten, List.map_map]
    have hle : ((groupby_values (params_key lvl rd) ctxs).map
          (List.length ∘ _collapse)).sum
        ≤ ((groupby_values (params_key lvl rd) ctxs).map List.length).sum := by
      apply List.sum_le_sum
      intro g _
      exact _collapse_length g
    calc ((groupby_values (params_key lvl rd) ctxs).map
            (List.length ∘ _collapse)).sum
        ≤ ((groupby_values (params_key lvl rd) ctxs).map List.length).sum :=
          hle
      _ = ((groupby_values (params_key lvl rd) ctxs).flatten).length :=
          (List.length_flatten _).symm
      _ = ctxs.length := (groupby_flatten_perm _ ctxs).length_eq

/-- C1: collapse invariance.  For contexts sharing a temporal occurrence
model, with well-formed occurrence PMFs on the non-parametric members and
a conditional exceedance probability in [0, 1], the composed no-exceedance
probability under the independent-ruptures rule is exactly preserved both
by `_collapse` and by `collapse_the_ctxs` (parametric members merge by
rate summation, non-parametric ones by PMF convolution, and the two kinds
never merge with each other), and neither output is longer than its
input. -/
theorem collapse_invariance (t poe : ℝ) (lvl : ℕ) (rd : List String)
    (ctxs : List RuptureContext)
    (hv : ∀ c ∈ ctxs, c.occurrence_rate = none → validPMF c.probs_occur)
    (h0 : 0 ≤ poe) (h1 : poe ≤ 1) :
    composed_pne t (_collapse ctxs) poe = composed_pne t ctxs poe
    ∧ (_collapse ctxs).length ≤ ctxs.length
    ∧ composed_pne t (collapse_the_ctxs lvl rd ctxs) poe
        = composed_pne t ctxs poe
    ∧ (collapse_the_ctxs lvl rd ctxs).length ≤ ctxs.length :=
  ⟨composed_collapse t poe ctxs hv h0 h1, _collapse_length ctxs,
    composed_collapse_the_ctxs t poe lvl rd ctxs hv h0 h1,
    collapse_the_ctxs_length lvl rd ctxs⟩

lemma validPMF_pair {a b : ℚ} (ha : 0 ≤ a) (hb : 0 ≤ b) (hs : a + b ≤ 1) :
    validPMF [a, b] := by
  constructor
  · intro q hq
    rcases List.mem_cons.mp hq with rfl | hq
    · exact ha
    · rcases List.mem_cons.mp hq with rfl | hq
      · exact hb
      · exact absurd hq (List.not_mem_nil q)
  · simpa using hs

/-- A parametric context with occurrence rate 0.001 (spec scenario). -/
def ctxP1 : RuptureContext :=
  ⟨5, [], [("rrup", [10])], some (1/1000), [], [0], 0⟩

/-- A parametric context with occurrence rate 0.002 (spec scenario). -/
def ctxP2 : RuptureContext :=
  ⟨5, [], [("rrup", [10])], some (1/500), [], [0], 0⟩

/-- A non-parametric context with occurrence PMF [0.9, 0.1]. -/
def ctxN1 : RuptureContext :=
  ⟨5, [], [("rrup", [10])], none, [9/10, 1/10], [0], 0⟩

/-- A non-parametric context with occurrence PMF [0.8, 0.2]. -/
def ctxN2 : RuptureContext :=
  ⟨5, [], [("rrup", [10])], none, [4/5, 1/5], [0], 0⟩

/-- A mixed population of parametric and non-parametric contexts. -/
def ctxsC1 : List RuptureContext := [ctxP1, ctxN1, ctxP2, ctxN2]

/-- Witness for C1 on a concrete mixed population. -/
theorem collapse_invariance_witness :
    composed_pne 1 (_collapse ctxsC1) (1/2) = composed_pne 1 ctxsC1 (1/2)
    ∧ (_collapse ctxsC1).length ≤ ctxsC1.length
    ∧ composed_pne 1 (collapse_the_ctxs 0 ["rrup"] ctxsC1) (1/2)
        = composed_pne 1 ctxsC1 (1/2)
    ∧ (collapse_the_ctxs 0 ["rrup"] ctxsC1).length ≤ ctxsC1.length := by
  have hv : ∀ c ∈ ctxsC1, c.occurrence_rate = none →
      validPMF c.probs_occur := by
    intro c hc
    simp only [ctxsC1, List.mem_cons, List.not_mem_nil, or_false] at hc
    rcases hc with rfl | rfl | rfl | rfl
    · intro h
      simp [ctxP1] at h
    · intro _
      exact validPMF_pair (by norm_num) (by norm_num) (by norm_num)
    · intro h
      simp [ctxP2] at h
    · intro _
      exact validPMF_pair (by norm_num) (by norm_num) (by norm_num)
  exact collapse_invariance 1 (1/2) 0 ["rrup"] ctxsC1 hv
    (by norm_num) (by norm_num)

/-- C10: for a non-parametric rupture context the value returned by
get_probability_no_exceedance is the raw occurrence-count sum clipped to
[0, 1], hence always a valid probability, whatever the inputs. -/
theorem nonparametric_pne_clipped (t poe : ℝ) (ctx : RuptureContext)
    (h : ctx.occurrence_rate = none) :
    get_probability_no_exceedance t ctx poe
      = clip01 (∑ i ∈ Finset.range ctx.probs_occur.length,
          (ctx.probs_occur.getD i 0 : ℝ) * (1 - poe) ^ i)
    ∧ 0 ≤ get_probability_no_exceedance t ctx poe
    ∧ get_probability_no_exceedance t ctx poe ≤ 1 := by
  have heq : get_probability_no_exceedance t ctx poe
      = clip01 (∑ i ∈ Finset.range ctx.probs_occur.length,
          (ctx.probs_occur.getD i 0 : ℝ) * (1 - poe) ^ i) := by
    unfold get_probability_no_exceedance
    rw [h]
  refine ⟨heq, ?_, ?_⟩
  · rw [heq]
    exact (clip01_mem _).1
  · rw [heq]
    exact (clip01_mem _).2

/-- A malformed non-parametric context: negative PMF entry, mass above 1. -/
def ctxBad : RuptureContext := ⟨5, [], [], none, [2, -3], [0], 0⟩

/-- Witness for C10 on a malformed context at an out-of-range poes value. -/
theorem nonparametric_pne_clipped_witness :
    0 ≤ get_probability_no_exceedance 1 ctxBad 5
    ∧ get_probability_no_exceedance 1 ctxBad 5 ≤ 1 :=
  (nonparametric_pne_clipped 1 5 ctxBad rfl).2

/-! ## Probability map updates (contexts.py, PmapMaker._update_pmap)

Python source of the inner loop:

    pnes = ctx.get_probability_no_exceedance(poes)
    for sid, pne in zip(ctx.sids, pnes):
        probs = pmap.setdefault(sid, rup_indep).array
        if rup_indep:
            probs *= pne
        else:  # rup_mutex
            probs += (1. - pne) * ctx.weight

The probability map becomes an association list site id -> scalar
accumulator; the block_splitter around the loop only partitions the
iteration over the contexts and does not change the fold. -/

/-- Lookup of a site id in an association-list probability map. -/
def plookup : List (ℕ × ℝ) → ℕ → Option ℝ
  | [], _ => none
  | (s, v) :: rest, sid => if s = sid then some v else plookup rest sid

/-- Modelled from the spec: ProbabilityMap.setdefault(sid, value)
(openquake.hazardlib.probability_map is not under src/) stores a fresh
per-site accumulator filled with `value` when the site id is absent, and
leaves the map unchanged otherwise; the spec states that absence of a site
id means "no contribution yet".  The Python call passes the boolean
rup_indep as the fill value, so the fresh accumulator starts at 1 in the
independent mode and at 0 in the mutually-exclusive mode. -/
def setdefault (pmap : List (ℕ × ℝ)) (sid : ℕ) (v : ℝ) : List (ℕ × ℝ) :=
  match plookup pmap sid with
  | some _ => pmap
  | none => pmap ++ [(sid, v)]

/-- In-place mutation of the accumulator bound to a site id. -/
def update_value (pmap : List (ℕ × ℝ)) (sid : ℕ) (f : ℝ → ℝ) :
    List (ℕ × ℝ) :=
  pmap.map (fun p => if p.1 = sid then (p.1, f p.2) else p)

/-- One iteration of the `for sid, pne in zip(ctx.sids, pnes)` loop of
PmapMaker._update_pmap. -/
def update_site (rup_indep : Bool) (w : ℝ) (pmap : List (ℕ × ℝ))
    (sid : ℕ) (pne : ℝ) : List (ℕ × ℝ) :=
  let pm := setdefault pmap sid (if rup_indep then 1 else 0)
  update_value pm sid
    (fun probs => if rup_indep then probs * pne else probs + (1 - pne) * w)

/-- Processing of one context by PmapMaker._update_pmap: fold over the
zipped (site id, pne) pairs of the context, with the context weight. -/
def update_ctx (rup_indep : Bool) (pmap : List (ℕ × ℝ))
    (sidpnes : List (ℕ × ℝ)) (w : ℝ) : List (ℕ × ℝ) :=
  sidpnes.foldl (fun pm sp => update_site rup_indep w pm sp.1 sp.2) pmap

/-- Shallow embedding of PmapMaker._update_pmap: each context contributes
its zipped (site id, pne) pairs and its weight. -/
def _update_pmap (rup_indep : Bool) (ctxs : List (List (ℕ × ℝ) × ℝ))
    (pmap : List (ℕ × ℝ)) : List (ℕ × ℝ) :=
  ctxs.foldl (fun pm c => update_ctx rup_indep pm c.1 c.2) pmap

lemma plookup_append_ne (pm : List (ℕ × ℝ)) (sid2 : ℕ) (v : ℝ) (sid : ℕ)
    (h : sid2 ≠ sid) : plookup (pm ++ [(sid2, v)]) sid = plookup pm sid := by
  induction pm with
  | nil => simp [plookup, h]
  | cons p rest ih =>
    rw [List.cons_append, plookup, plookup]
    by_cases hp : p.1 = sid
    · simp [hp]
    · simp only [hp, if_false]
      exact ih

lemma plookup_setdefault_ne (pm : List (ℕ × ℝ)) (sid2 : ℕ) (v : ℝ)
    (sid : ℕ) (h : sid2 ≠ sid) :
    plookup (setdefault pm sid2 v) sid = plookup pm sid := by
  unfold setdefault
  cases hl : plookup pm sid2 with
  | some w => rfl
  | none => exact plookup_append_ne pm sid2 v sid h

lemma plookup_update_value_ne (pm : List (ℕ × ℝ)) (sid2 : ℕ) (f : ℝ → ℝ)
    (sid : ℕ) (h : sid2 ≠ sid) :
    plookup (update_value pm sid2 f) sid = plookup pm sid := by
  induction pm with
  | nil => rfl
  | cons p rest ih =>
    obtain ⟨s, v⟩ := p
    simp only [update_value, List.map_cons] at ih ⊢
    by_cases hp : s = sid2
    · have hhead : (if (s, v).1 = sid2 then ((s, v).1, f (s, v).2)
          else (s, v)) = (s, f v) := by
        simp [hp]
      rw [hhead]
      have hns : ¬ (s = sid) := by rw [hp]; exact h
      simp only [plookup, hns, if_false]
      exact ih
    · have hhead : (if (s, v).1 = sid2 then ((s, v).1, f (s, v).2)
          else (s, v)) = (s, v) := by
        simp [hp]
      rw [hhead]
      simp only [plookup]
      by_cases hps : s = sid
      · rw [if_pos hps, if_pos hps]
      · rw [if_neg hps, if_neg hps]
        exact ih

lemma plookup_update_value_eq (pm : List (ℕ × ℝ)) (sid : ℕ) (f : ℝ → ℝ) :
    plookup (update_value pm sid f) sid = (plookup pm sid).map f := by
  induction pm with
  | nil => rfl
  | cons p rest ih =>
    obtain ⟨s, v⟩ := p
    simp only [update_value, List.map_cons] at ih ⊢
    by_cases hp : s = sid
    · have hhead : (if (s, v).1 = sid then ((s, v).1, f (s, v).2)
          else (s, v)) = (s, f v) := by
        simp [hp]
      rw [hhead]
      simp only [plookup, hp, if_pos rfl]
      rfl
    · have hhead : (if (s, v).1 = sid then ((s, v).1, f (s, v).2)
          else (s, v)) = (s, v) := by
        simp [hp]
      rw [hhead]
      simp only [plookup, hp, if_false]
      exact ih

lemma plookup_append_eq (pm : List (ℕ × ℝ)) (sid : ℕ) (v : ℝ)
    (h : plookup pm sid = none) :
    plookup (pm ++ [(sid, v)]) sid = some v := by
  induction pm with
  | nil => simp [plookup]
  | cons p rest ih =>
    rw [plookup] at h
    rw [List.cons_append, plookup]
    by_cases hp : p.1 = sid
    · rw [if_pos hp] at h
      exact absurd h (by simp)
    · rw [if_neg hp] at h ⊢
      exact ih h

lemma plookup_update_site_ne (indep : Bool) (w : ℝ) (pm : List (ℕ × ℝ))
    (sid2 : ℕ) (pne : ℝ) (sid : ℕ) (h : sid2 ≠ sid) :
    plookup (update_site indep w pm sid2 pne) sid = plookup pm sid := by
  unfold update_site
  rw [plookup_update_value_ne _ _ _ _ h, plookup_setdefault_ne _ _ _ _ h]

lemma plookup_update_site_eq (indep : Bool) (w : ℝ) (pm : List (ℕ × ℝ))
    (sid : ℕ) (pne : ℝ) :
    plookup (update_site indep w pm sid pne) sid =
      some (if indep then ((plookup pm sid).getD 1) * pne
            else ((plookup pm sid).getD 0) + (1 - pne) * w) := by
  unfold update_site setdefault
  cases hl : plookup pm sid with
  | some v =>
    rw [plookup_update_value_eq, hl]
    cases indep <;> simp
  | none =>
    rw [plookup_update_value_eq, plookup_append_eq pm sid _ hl]
    cases indep <;> simp

lemma plookup_update_ctx_notin (indep : Bool) (w : ℝ) (sp : List (ℕ × ℝ))
    (pm : List (ℕ × ℝ)) (sid : ℕ) (h : sid ∉ sp.map Prod.fst) :
    plookup (update_ctx indep pm sp w) sid = plookup pm sid := by
  induction sp generalizing pm with
  | nil => rfl
  | cons p rest ih =>
    rw [List.map_cons] at h
    have hne : p.1 ≠ sid := fun he => h (he ▸ List.mem_cons_self p.1 _)
    have hrest : sid ∉ rest.map Prod.fst := fun hm => h (List.mem_cons_of_mem _ hm)
    rw [update_ctx, List.foldl_cons]
    have := ih (update_site indep w pm p.1 p.2) hrest
    rw [update_ctx] at this
    rw [this, plookup_update_site_ne _ _ _ _ _ _ hne]

lemma plookup_update_ctx_mem (indep : Bool) (w : ℝ) (sp : List (ℕ × ℝ))
    (pm : List (ℕ × ℝ)) (sid : ℕ) (pne : ℝ) (hmem : (sid, pne) ∈ sp)
    (hnd : (sp.map Prod.fst).Nodup) :
    plookup (update_ctx indep pm sp w) sid =
      some (if indep then ((plookup pm sid).getD 1) * pne
            else ((plookup pm sid).getD 0) + (1 - pne) * w) := by
  induction sp generalizing pm with
  | nil => exact absurd hmem (List.not_mem_nil _)
  | cons p rest ih =>
    rw [List.map_cons, List.nodup_cons] at hnd
    rw [update_ctx, List.foldl_cons]
    rcases List.mem_cons.mp hmem with heq | hmem2
    · have hnin : sid ∉ rest.map Prod.fst := by
        rw [← heq] at hnd
        exact hnd.1
      have hstep := plookup_update_ctx_notin indep w rest
        (update_site indep w pm p.1 p.2) sid hnin
      rw [update_ctx] at hstep
      rw [hstep, ← heq]
      exact plookup_update_site_eq indep w pm sid pne
    · have hne : p.1 ≠ sid := by
        intro he
        have : sid ∈ rest.map Prod.fst :=
          List.mem_map_of_mem Prod.fst hmem2
        exact hnd.1 (he ▸ this)
      have hstep := ih (update_site indep w pm p.1 p.2) hmem2 hnd.2
      rw [update_ctx] at hstep
      rw [hstep, plookup_update_site_ne _ _ _ _ _ _ hne]

/-- C3: PmapMaker._update_pmap updates the accumulator of every site id of
a context by multiplying in the no-exceedance probability pne when
ruptures are independent, and by adding the linear contribution
(1 - pne) * ctx.weight when ruptures are mutually exclusive. -/
theorem update_pmap_rule (indep : Bool) (pmap : List (ℕ × ℝ))
    (sp : List (ℕ × ℝ)) (w : ℝ) (sid : ℕ) (pne : ℝ)
    (hmem : (sid, pne) ∈ sp) (hnd : (sp.map Prod.fst).Nodup) :
    plookup (_update_pmap indep [(sp, w)] pmap) sid =
      some (if indep then ((plookup pmap sid).getD 1) * pne
            else ((plookup pmap sid).getD 0) + (1 - pne) * w) := by
  rw [_update_pmap, List.foldl_cons, List.foldl_nil]
  exact plookup_update_ctx_mem indep w sp pmap sid pne hmem hnd

/-- Witness for C3: one context touching site 0 in each mode. -/
theorem update_pmap_rule_witness :
    plookup (_update_pmap true [([(0, 1/2)], 1)] [(0, 3/4)]) 0
        = some ((plookup [(0, 3/4)] 0).getD 1 * (1/2))
    ∧ plookup (_update_pmap false [([(0, 1/2)], 1)] []) 0
        = some ((plookup ([] : List (ℕ × ℝ)) 0).getD 0 + (1 - 1/2) * 1) := by
  constructor
  · have h := update_pmap_rule true [(0, 3/4)] [(0, 1/2)] 1 0 (1/2)
      (by simp) (by simp)
    simpa using h
  · have h := update_pmap_rule false [] [(0, 1/2)] 1 0 (1/2)
      (by simp) (by simp)
    simpa using h

/-- C7 counterexample: in the mutually-exclusive mode a fresh site
accumulator starts at 0 (the float value of the boolean rup_indep passed
to setdefault), not at 1: for a fresh site the stored value is
(1 - pne) * weight = 1/2, while initialization to 1 would give
1 + (1 - pne) * weight = 3/2. -/
theorem pmap_init_counterexample :
    plookup (_update_pmap false [([(0, 1/2)], 1)] []) 0 = some (1/2)
    ∧ ((1:ℝ)/2) ≠ 1 + (1 - 1/2) * 1 := by
  constructor
  · norm_num [_update_pmap, update_ctx, update_site, setdefault,
      update_value, plookup]
  · norm_num

/-- All stored accumulators lie in [0, B]. -/
def boundedBy (pm : List (ℕ × ℝ)) (B : ℝ) : Prop :=
  ∀ sid v, plookup pm sid = some v → 0 ≤ v ∧ v ≤ B

lemma boundedBy_update_site_indep (pm : List (ℕ × ℝ)) (pne w : ℝ)
    (sid : ℕ) (hb : boundedBy pm 1) (h0 : 0 ≤ pne) (h1 : pne ≤ 1) :
    boundedBy (update_site true w pm sid pne) 1 := by
  intro sid2 v hv
  by_cases hs : sid = sid2
  · subst hs
    rw [plookup_update_site_eq] at hv
    have hv2 := Option.some.inj hv
    rw [if_pos rfl] at hv2
    cases hl : plookup pm sid with
    | none =>
      rw [hl] at hv2
      simp only [Option.getD_none, one_mul] at hv2
      exact ⟨by linarith, by linarith⟩
    | some u =>
      have hu := hb sid u hl
      rw [hl] at hv2
      simp only [Option.getD_some] at hv2
      refine ⟨?_, ?_⟩
      · rw [← hv2]
        exact mul_nonneg hu.1 h0
      · rw [← hv2]
        have hm : u * pne ≤ 1 * 1 := mul_le_mul hu.2 h1 h0 zero_le_one
        linarith
  · rw [plookup_update_site_ne _ _ _ _ _ _ hs] at hv
    exact hb sid2 v hv

lemma boundedBy_update_ctx_indep (w : ℝ) (sp : List (ℕ × ℝ))
    (pm : List (ℕ × ℝ)) (hb : boundedBy pm 1)
    (hpne : ∀ p ∈ sp, 0 ≤ p.2 ∧ p.2 ≤ 1) :
    boundedBy (update_ctx true pm sp w) 1 := by
  induction sp generalizing pm with
  | nil => exact hb
  | cons p rest ih =>
    rw [update_ctx, List.foldl_cons]
    have hp := hpne p (List.mem_cons_self p rest)
    have hb2 := boundedBy_update_site_indep pm p.2 w p.1 hb hp.1 hp.2
    have hrec := ih (update_site true w pm p.1 p.2) hb2
      (fun q hq => hpne q (List.mem_cons_of_mem p hq))
    rw [update_ctx] at hrec
    exact hrec

lemma boundedBy_update_pmap_indep (ctxs : List (List (ℕ × ℝ) × ℝ))
    (pm : List (ℕ × ℝ)) (hb : boundedBy pm 1)
    (hpne : ∀ c ∈ ctxs, ∀ p ∈ c.1, 0 ≤ p.2 ∧ p.2 ≤ 1) :
    boundedBy (_update_pmap true ctxs pm) 1 := by
  induction ctxs generalizing pm with
  | nil => exact hb
  | cons c rest ih =>
    rw [_update_pmap, List.foldl_cons]
    have hb2 := boundedBy_update_ctx_indep c.2 c.1 pm hb
      (hpne c (List.mem_cons_self c rest))
    have hrec := ih (update_ctx true pm c.1 c.2) hb2
      (fun d hd => hpne d (List.mem_cons_of_mem c hd))
    rw [_update_pmap] at hrec
    exact hrec

lemma boundedBy_update_ctx_mutex {pm : List (ℕ × ℝ)} {w B : ℝ}
    {sp : List (ℕ × ℝ)} (hb : boundedBy pm B) (hB : 0 ≤ B) (hw : 0 ≤ w)
    (hnd : (sp.map Prod.fst).Nodup)
    (hpne : ∀ p ∈ sp, 0 ≤ p.2 ∧ p.2 ≤ 1) :
    boundedBy (update_ctx false pm sp w) (B + w) := by
  intro sid v hv
  by_cases hs : sid ∈ sp.map Prod.fst
  · obtain ⟨p, hp, hfst⟩ := List.mem_map.mp hs
    have hmem : (sid, p.2) ∈ sp := by
      rw [← hfst]
      simpa using hp
    have hpb := hpne p hp
    rw [plookup_update_ctx_mem false w sp pm sid p.2 hmem hnd] at hv
    have hv2 := Option.some.inj hv
    simp only [Bool.false_eq_true, if_false] at hv2
    have hcontrib0 : 0 ≤ (1 - p.2) * w :=
      mul_nonneg (by linarith [hpb.2]) hw
    have hcontrib1 : (1 - p.2) * w ≤ w := by
      calc (1 - p.2) * w ≤ 1 * w :=
            mul_le_mul_of_nonneg_right (by linarith [hpb.1]) hw
        _ = w := one_mul w
    cases hl : plookup pm sid with
    | none =>
      rw [hl] at hv2
      simp only [Option.getD_none] at hv2
      constructor <;> linarith [hv2]
    | some u =>
      have hu := hb sid u hl
      rw [hl] at hv2
      simp only [Option.getD_some] at hv2
      constructor <;> linarith [hv2, hu.1, hu.2]
  · rw [plookup_update_ctx_notin false w sp pm sid hs] at hv
    have := hb sid v hv
    constructor <;> linarith [this.1, this.2]

lemma boundedBy_update_pmap_mutex {pm : List (ℕ × ℝ)} {B : ℝ}
    {ctxs : List (List (ℕ × ℝ) × ℝ)} (hb : boundedBy pm B) (hB : 0 ≤ B)
    (hw : ∀ c ∈ ctxs, 0 ≤ c.2)
    (hnd : ∀ c ∈ ctxs, (c.1.map Prod.fst).Nodup)
    (hpne : ∀ c ∈ ctxs, ∀ p ∈ c.1, 0 ≤ p.2 ∧ p.2 ≤ 1) :
    boundedBy (_update_pmap false ctxs pm)
      (B + (ctxs.map (fun c => c.2)).sum) := by
  induction ctxs generalizing pm B with
  | nil =>
    simpa using hb
  | cons c rest ih =>
    rw [_update_pmap, List.foldl_cons, List.map_cons, List.sum_cons,
      ← add_assoc]
    have hwc := hw c (List.mem_cons_self c rest)
    have hb2 := boundedBy_update_ctx_mutex hb hB hwc
      (hnd c (List.mem_cons_self c rest))
      (hpne c (List.mem_cons_self c rest))
    have := ih hb2 (by linarith)
      (fun d hd => hw d (List.mem_cons_of_mem c hd))
      (fun d hd => hnd d (List.mem_cons_of_mem c hd))
      (fun d hd => hpne d (List.mem_cons_of_mem c hd))
    rw [_update_pmap] at this
    exact this

/-- C7 amended: a fresh per-site accumulator is initialized to 1 in the
independent mode (absence of a site id meaning an implicit no-exceedance
value of 1) but to 0 in the mutually-exclusive mode, before the
contribution is folded in; for contributions that are probabilities (and,
in the mutually-exclusive mode, weights that are nonnegative and sum to
at most 1 with no repeated site within a context), all stored values
remain in [0, 1]. -/
theorem pmap_init_amended (pmap : List (ℕ × ℝ)) (sid : ℕ) (pne w : ℝ)
    (ctxs : List (List (ℕ × ℝ) × ℝ))
    (habs : plookup pmap sid = none)
    (hpne : ∀ c ∈ ctxs, ∀ p ∈ c.1, 0 ≤ p.2 ∧ p.2 ≤ 1)
    (hw : ∀ c ∈ ctxs, 0 ≤ c.2)
    (hnd : ∀ c ∈ ctxs, (c.1.map Prod.fst).Nodup)
    (hwsum : (ctxs.map (fun c => c.2)).sum ≤ 1) :
    plookup (update_site true w pmap sid pne) sid = some (1 * pne)
    ∧ plookup (update_site false w pmap sid pne) sid
        = some (0 + (1 - pne) * w)
    ∧ (∀ indep sid2 v, plookup (_update_pmap indep ctxs []) sid2 = some v →
        0 ≤ v ∧ v ≤ 1) := by
  refine ⟨?_, ?_, ?_⟩
  · rw [plookup_update_site_eq, habs]
    simp
  · rw [plookup_update_site_eq, habs]
    simp
  · intro indep sid2 v hv
    have hempty : boundedBy ([] : List (ℕ × ℝ)) 0 := by
      intro s u hu
      simp [plookup] at hu
    cases indep with
    | true =>
      have hb : boundedBy ([] : List (ℕ × ℝ)) 1 := by
        intro s u hu
        simp [plookup] at hu
      exact boundedBy_update_pmap_indep ctxs [] hb hpne sid2 v hv
    | false =>
      have hfin := boundedBy_update_pmap_mutex hempty le_rfl hw hnd hpne
        sid2 v hv
      constructor
      · exact hfin.1
      · calc v ≤ 0 + (ctxs.map (fun c => c.2)).sum := hfin.2
          _ ≤ 1 := by linarith

/-- Witness for the amended C7 at a concrete map and context list. -/
theorem pmap_init_amended_witness :
    plookup (update_site true 1 [] 0 (1/2)) 0 = some (1 * (1/2))
    ∧ plookup (update_site false 1 [] 0 (1/2)) 0
        = some (0 + (1 - 1/2) * 1) := by
  have h := pmap_init_amended [] 0 (1/2) 1 [([(0, 1/2)], 1)]
    rfl
    (by intro c hc p hp
        simp only [List.mem_cons, List.not_mem_nil, or_false] at hc
        subst hc
        simp only [List.mem_cons, List.not_mem_nil, or_false] at hp
        subst hp
        norm_num)
    (by intro c hc
        simp only [List.mem_cons, List.not_mem_nil, or_false] at hc
        subst hc
        norm_num)
    (by intro c hc
        simp only [List.mem_cons, List.not_mem_nil, or_false] at hc
        subst hc
        simp)
    (by norm_num)
  exact ⟨h.1, h.2.1⟩

/-! ## Minimum-distance roundup (contexts.py, DistancesContext.roundup and
RuptureContext.roundup)

Both methods return the receiver unchanged when minimum_distance is falsy
(zero); otherwise they copy the context and raise every distance below
minimum_distance to exactly minimum_distance.  RuptureContext.roundup only
touches the attributes listed in KNOWN_DISTANCES. -/

/-- The module constant KNOWN_DISTANCES of contexts.py. -/
def KNOWN_DISTANCES : List String :=
  ["rrup", "rx", "ry0", "rjb", "rhypo", "repi", "rcdpp", "azimuth",
   "azimuth_cp", "rvolc", "closest_point"]

/-- The per-array body of roundup: raise the entries below
minimum_distance to minimum_distance (the `.any()` test of the source is
an allocation optimization and does not change the values). -/
def roundup_array (minimum_distance : ℚ) (array : List ℚ) : List ℚ :=
  if array.any (fun x => x < minimum_distance) then
    array.map (fun x => if x < minimum_distance then minimum_distance else x)
  else array

/-- Shallow embedding of DistancesContext: named per-site distance
arrays. -/
structure DistancesContext where
  arrays : List (String × List ℚ)

/-- Shallow embedding of DistancesContext.roundup. -/
def DistancesContext.roundup (minimum_distance : ℚ)
    (dctx : DistancesContext) : DistancesContext :=
  if minimum_distance = 0 then dctx
  else ⟨dctx.arrays.map (fun p => (p.1, roundup_array minimum_distance p.2))⟩

/-- Shallow embedding of RuptureContext.roundup: only the attributes in
KNOWN_DISTANCES are rounded up. -/
def RuptureContext.roundup (minimum_distance : ℚ) (ctx : RuptureContext) :
    RuptureContext :=
  if minimum_distance = 0 then ctx
  else { ctx with dist_arrays := ctx.dist_arrays.map (fun p =>
    if p.1 ∈ KNOWN_DISTANCES then (p.1, roundup_array minimum_distance p.2)
    else p) }

lemma roundup_array_no_small {m : ℚ} {array : List ℚ}
    (h : ∀ x ∈ array, ¬ x < m) : roundup_array m array = array := by
  unfold roundup_array
  have hany : ¬ (array.any (fun x => decide (x < m)) = true) := by
    simp only [List.any_eq_true, not_exists]
    intro x hx
    exact h x hx.1 (by simpa using hx.2)
  rw [if_neg hany]

lemma roundup_array_ge (m : ℚ) (array : List ℚ) :
    ∀ x ∈ roundup_array m array, ¬ x < m ∨ x ∈ array := by
  intro x hx
  unfold roundup_array at hx
  by_cases hany : array.any (fun x => decide (x < m))
  · rw [if_pos hany] at hx
    obtain ⟨y, _, rfl⟩ := List.mem_map.mp hx
    by_cases hy : y < m
    · left
      simp [hy]
    · left
      simp [hy]
  · rw [if_neg hany] at hx
    right
    exact hx

lemma roundup_array_all_ge (m : ℚ) (array : List ℚ) :
    ∀ x ∈ roundup_array m array, ¬ x < m ∨ ∀ y ∈ array, ¬ y < m := by
  intro x hx
  unfold roundup_array at hx
  by_cases hany : array.any (fun x => decide (x < m))
  · rw [if_pos hany] at hx
    obtain ⟨y, _, rfl⟩ := List.mem_map.mp hx
    left
    by_cases hy : y < m
    · simp [hy]
    · simp [hy]
  · rw [if_neg hany] at hx
    right
    intro y hy
    simp only [List.any_eq_true, not_exists] at hany
    intro hlt
    exact hany y ⟨hy, by simpa using hlt⟩

lemma roundup_array_idem (m : ℚ) (array : List ℚ) :
    roundup_array m (roundup_array m array) = roundup_array m array := by
  apply roundup_array_no_small
  intro x hx
  rcases roundup_array_all_ge m array x hx with h | h
  · exact h
  · rw [roundup_array_no_small h] at hx
    exact h x hx

lemma roundup_array_getD (m : ℚ) (array : List ℚ) (i : ℕ)
    (hi : i < array.length) :
    (roundup_array m array).getD i 0 =
      if array.getD i 0 < m then m else array.getD i 0 := by
  unfold roundup_array
  by_cases hany : array.any (fun x => decide (x < m))
  · rw [if_pos hany, List.getD_eq_getElem?_getD, List.getElem?_map]
    rw [List.getElem?_eq_getElem hi]
    rw [List.getD_eq_getElem array 0 hi]
    rfl
  · rw [if_neg hany]
    simp only [List.any_eq_true, not_exists] at hany
    have hno : ¬ array.getD i 0 < m := by
      intro hlt
      refine hany (array.getD i 0) ⟨?_, by simpa using hlt⟩
      rw [List.getD_eq_getElem array 0 hi]
      exact List.getElem_mem hi
    rw [if_neg hno]

lemma dctx_roundup_idem (m : ℚ) (dctx : DistancesContext) :
    DistancesContext.roundup m (DistancesContext.roundup m dctx)
      = DistancesContext.roundup m dctx := by
  unfold DistancesContext.roundup
  by_cases hm : m = 0
  · rw [if_pos hm]
  · simp only [if_neg hm, List.map_map]
    apply congrArg DistancesContext.mk
    apply List.map_congr_left
    intro p _
    simp [Function.comp, roundup_array_idem]

lemma rctx_roundup_idem (m : ℚ) (ctx : RuptureContext) :
    RuptureContext.roundup m (RuptureContext.roundup m ctx)
      = RuptureContext.roundup m ctx := by
  unfold RuptureContext.roundup
  by_cases hm : m = 0
  · rw [if_pos hm]
  · simp only [if_neg hm, List.map_map]
    congr 1
    apply List.map_congr_left
    intro p _
    by_cases hk : p.1 ∈ KNOWN_DISTANCES
    · simp [Function.comp, hk, roundup_array_idem]
    · simp [Function.comp, hk]

/-- C8: roundup is idempotent on both context kinds, leaves any array all
of whose values are at least minimum_distance unchanged, and raises
exactly the values below minimum_distance to minimum_distance. -/
theorem roundup_idempotent (m : ℚ) (ctx : RuptureContext)
    (dctx : DistancesContext) (array : List ℚ) :
    RuptureContext.roundup m (RuptureContext.roundup m ctx)
        = RuptureContext.roundup m ctx
    ∧ DistancesContext.roundup m (DistancesContext.roundup m dctx)
        = DistancesContext.roundup m dctx
    ∧ ((∀ x ∈ array, m ≤ x) → roundup_array m array = array)
    ∧ (∀ i, i < array.length → (roundup_array m array).getD i 0
        = if array.getD i 0 < m then m else array.getD i 0) :=
  ⟨rctx_roundup_idem m ctx, dctx_roundup_idem m dctx,
    fun h => roundup_array_no_small (fun x hx => not_lt.mpr (h x hx)),
    fun i hi => roundup_array_getD m array i hi⟩

/-- A context used by the roundup witness. -/
def ctxR8 : RuptureContext :=
  ⟨5, [], [("rrup", [3, 7])], some 1, [], [0, 1], 0⟩

/-- Witness for C8 at minimum_distance 5. -/
theorem roundup_idempotent_witness :
    RuptureContext.roundup 5 (RuptureContext.roundup 5 ctxR8)
        = RuptureContext.roundup 5 ctxR8
    ∧ roundup_array 5 [5, 6] = [5, 6] := by
  have h := roundup_idempotent 5 ctxR8 ⟨[("rjb", [2, 9])]⟩ [5, 6]
  refine ⟨h.1, h.2.2.1 ?_⟩
  intro x hx
  rcases List.mem_cons.mp hx with rfl | hx
  · norm_num
  · rcases List.mem_cons.mp hx with rfl | hx
    · norm_num
    · exact absurd hx (List.not_mem_nil x)

/-! ## Site filtering (contexts.py, ContextMaker.filter and make_ctxs)

Python source of the filter:

    distances = get_distances(rup, sites, 'rrup')
    mdist = self.maximum_distance(self.trt, rup.mag)
    mask = distances <= mdist
    if mask.any():
        sites, distances = sites.filter(mask), distances[mask]
    else:
        raise FarAwayRupture(...)

A rupture is embedded with its magnitude and the rrup distance of each
site id of the collection (get_distances and the surface geometry are
external collaborators); the magnitude-dependent maximum distance is an
arbitrary function of the magnitude. -/

inductive HazError
  | FarAwayRupture
deriving DecidableEq

/-- A rupture paired with its per-site rrup distances. -/
structure Rupture where
  mag : ℚ
  rrup : List (ℕ × ℚ)

/-- Shallow embedding of ContextMaker.filter: keep the sites whose rrup
distance is at most the magnitude-dependent maximum distance; raise
FarAwayRupture when the mask is empty. -/
def ContextMaker.filter (maximum_distance : ℚ → ℚ) (rup : Rupture) :
    Except HazError (List (ℕ × ℚ)) :=
  let mdist := maximum_distance rup.mag
  if rup.rrup.any (fun s => s.2 ≤ mdist) then
    Except.ok (rup.rrup.filter (fun s => s.2 ≤ mdist))
  else
    Except.error HazError.FarAwayRupture

/-- Shallow embedding of ContextMaker.make_ctxs: a FarAwayRupture from
make_contexts is caught and the rupture skipped (`continue`); surviving
ruptures contribute their filtered site lists in order. -/
def ContextMaker.make_ctxs (maximum_distance : ℚ → ℚ)
    (rups : List Rupture) : List (List (ℕ × ℚ)) :=
  rups.foldr (fun rup acc =>
    match ContextMaker.filter maximum_distance rup with
    | Except.error _ => acc
    | Except.ok sites => sites :: acc) []

/-- C4: the distance filter keeps exactly the sites with rrup at most the
magnitude-dependent threshold (a site at the exact threshold is kept),
raises FarAwayRupture exactly when every site is beyond the threshold,
and make_ctxs recovers from FarAwayRupture by skipping the rupture and
continuing with the remaining ones. -/
theorem filter_faraway_spec (md : ℚ → ℚ) (rup : Rupture)
    (rups : List Rupture) :
    (∀ res, ContextMaker.filter md rup = Except.ok res →
      ∀ s, s ∈ res ↔ s ∈ rup.rrup ∧ s.2 ≤ md rup.mag)
    ∧ (ContextMaker.filter md rup = Except.error HazError.FarAwayRupture
        ↔ ∀ s ∈ rup.rrup, md rup.mag < s.2)
    ∧ (ContextMaker.filter md rup = Except.error HazError.FarAwayRupture →
        ContextMaker.make_ctxs md (rup :: rups)
          = ContextMaker.make_ctxs md rups)
    ∧ (∀ res, ContextMaker.filter md rup = Except.ok res →
        ContextMaker.make_ctxs md (rup :: rups)
          = res :: ContextMaker.make_ctxs md rups) := by
  refine ⟨?_, ?_, ?_, ?_⟩
  · intro res hres s
    unfold ContextMaker.filter at hres
    by_cases hany : rup.rrup.any (fun s => decide (s.2 ≤ md rup.mag))
    · rw [if_pos hany] at hres
      have hres2 := Except.ok.inj hres
      rw [← hres2]
      constructor
      · intro hs
        have := List.mem_filter.mp hs
        exact ⟨this.1, by simpa using this.2⟩
      · intro hs
        exact List.mem_filter.mpr ⟨hs.1, by simpa using hs.2⟩
    · rw [if_neg hany] at hres
      exact absurd hres (by simp)
  · unfold ContextMaker.filter
    by_cases hany : rup.rrup.any (fun s => decide (s.2 ≤ md rup.mag))
    · rw [if_pos hany]
      simp only [List.any_eq_true] at hany
      obtain ⟨s, hs, hle⟩ := hany
      constructor
      · intro h
        exact absurd h (by simp)
      · intro h
        exact absurd (h s hs) (not_lt.mpr (by simpa using hle))
    · rw [if_neg hany]
      simp only [List.any_eq_true, not_exists] at hany
      constructor
      · intro _ s hs
        by_contra hc
        exact hany s ⟨hs, by simpa using not_lt.mp hc⟩
      · intro _
        rfl
  · intro herr
    unfold ContextMaker.make_ctxs
    rw [List.foldr_cons, herr]
  · intro res hres
    unfold ContextMaker.make_ctxs
    rw [List.foldr_cons, hres]

/-- A rupture with one site exactly at the threshold and one beyond. -/
def rupC4 : Rupture := ⟨6, [(0, 10), (1, 11)]⟩

/-- A rupture with every site beyond the threshold. -/
def rupFar : Rupture := ⟨6, [(0, 12), (1, 11)]⟩

/-- Witness for C4 with maximum distance 10: the site at exactly 10 km is
kept, the one at 11 km dropped, the all-far rupture raises FarAwayRupture
and is skipped by make_ctxs. -/
theorem filter_faraway_spec_witness :
    ((0, 10) ∈ rupC4.rrup ∧ ((0:ℕ), (10:ℚ)).2 ≤ (fun _ => (10:ℚ)) rupC4.mag)
    ∧ (∀ s ∈ rupFar.rrup, (fun _ => (10:ℚ)) rupFar.mag < s.2)
    ∧ ContextMaker.make_ctxs (fun _ => 10) [rupFar, rupC4]
        = ContextMaker.make_ctxs (fun _ => 10) [rupC4] := by
  have hok : ContextMaker.filter (fun _ => (10:ℚ)) rupC4
      = Except.ok [(0, 10)] := by
    norm_num [ContextMaker.filter, rupC4, List.filter]
  have herr : ContextMaker.filter (fun _ => (10:ℚ)) rupFar
      = Except.error HazError.FarAwayRupture := by
    norm_num [ContextMaker.filter, rupFar]
  have h := filter_faraway_spec (fun _ => (10:ℚ)) rupC4 []
  have hfar := filter_faraway_spec (fun _ => (10:ℚ)) rupFar [rupC4]
  refine ⟨?_, ?_, ?_⟩
  · exact (h.1 [(0, 10)] hok (0, 10)).mp (by simp)
  · exact hfar.2.1.mp herr
  · exact hfar.2.2.1 herr

/-! ## Disaggregation bin edges and binning (calc/disagg.py)

get_edges_shapedic builds the magnitude and distance edges:

    mag_edges = oq.mag_bin_width * numpy.arange(
        int(numpy.floor(min(mags) / oq.mag_bin_width)),
        int(numpy.ceil(max(mags) / oq.mag_bin_width) + 1))
    dist_edges = oq.distance_bin_width * numpy.arange(
        0, int(numpy.ceil(maxdist / oq.distance_bin_width) + 1))

build_disagg_matrix assigns bin indices with numpy.digitize minus one,
and maps an index equal to the bin count (a value at the exact upper edge
of the last bin) onto the last bin:

    dists_idx = numpy.digitize(bdata.dists, dist_bins) - 1
    dists_idx[dists_idx == dim1] = dim1 - 1
-/

/-- Python min over a nonempty list. -/
def pymin : List ℚ → ℚ
  | [] => 0
  | x :: xs => xs.foldl min x

/-- Python max over a nonempty list. -/
def pymax : List ℚ → ℚ
  | [] => 0
  | x :: xs => xs.foldl max x

/-- The magnitude edges of get_edges_shapedic. -/
def mag_edges (w : ℚ) (mags : List ℚ) : List ℚ :=
  let lo := ⌊pymin mags / w⌋
  let hi := ⌈pymax mags / w⌉ + 1
  (List.range (hi - lo).toNat).map (fun (i : ℕ) => w * ((lo : ℚ) + (i : ℚ)))

/-- The distance edges of get_edges_shapedic. -/
def dist_edges (w : ℚ) (maxdist : ℚ) : List ℚ :=
  (List.range (⌈maxdist / w⌉ + 1).toNat).map (fun (i : ℕ) => w * (i : ℚ))

/-- numpy.digitize(x, bins) for monotonically increasing bins: the number
of bin edges at or below x. -/
def digitize (x : ℚ) (bins : List ℚ) : ℕ :=
  (bins.filter (fun b => b ≤ x)).length

/-- The bin index assigned by build_disagg_matrix: digitize minus one,
with the out-of-matrix index dim (a value at the last edge) mapped onto
the last bin dim - 1. -/
def build_bin_idx (x : ℚ) (bins : List ℚ) : ℤ :=
  let idx : ℤ := (digitize x bins : ℤ) - 1
  let dim : ℤ := (bins.length : ℤ) - 1
  if idx = dim then dim - 1 else idx

lemma arange_map_getD (f : ℕ → ℚ) (n i : ℕ) (hi : i < n) :
    ((List.range n).map f).getD i 0 = f i := by
  rw [List.getD_eq_getElem?_getD, List.getElem?_map, List.getElem?_range hi]
  rfl

lemma foldl_min_le (xs : List ℚ) (a : ℚ) :
    ∀ m ∈ a :: xs, xs.foldl min a ≤ m := by
  induction xs generalizing a with
  | nil =>
    intro m hm
    rcases List.mem_cons.mp hm with rfl | hm
    · exact le_refl m
    · exact absurd hm (List.not_mem_nil m)
  | cons y ys ih =>
    intro m hm
    rw [List.foldl_cons]
    rcases List.mem_cons.mp hm with rfl | hm
    · exact le_trans (le_trans (ih (min m y) (min m y)
        (List.mem_cons_self _ _)) (min_le_left m y)) (le_refl m)
    · rcases List.mem_cons.mp hm with rfl | hm
      · exact le_trans (ih (min a m) (min a m) (List.mem_cons_self _ _))
          (min_le_right a m)
      · exact ih (min a y) m (List.mem_cons_of_mem _ hm)

lemma le_foldl_max (xs : List ℚ) (a : ℚ) :
    ∀ m ∈ a :: xs, m ≤ xs.foldl max a := by
  induction xs generalizing a with
  | nil =>
    intro m hm
    rcases List.mem_cons.mp hm with rfl | hm
    · exact le_refl m
    · exact absurd hm (List.not_mem_nil m)
  | cons y ys ih =>
    intro m hm
    rw [List.foldl_cons]
    rcases List.mem_cons.mp hm with rfl | hm
    · exact le_trans (le_max_left m y)
        (ih (max m y) (max m y) (List.mem_cons_self _ _))
    · rcases List.mem_cons.mp hm with rfl | hm
      · exact le_trans (le_max_right a m)
          (ih (max a m) (max a m) (List.mem_cons_self _ _))
      · exact ih (max a y) m (List.mem_cons_of_mem _ hm)

lemma pymin_le {mags : List ℚ} : ∀ m ∈ mags, pymin mags ≤ m := by
  intro m hm
  cases mags with
  | nil => exact absurd hm (List.not_mem_nil m)
  | cons x xs => exact foldl_min_le xs x m hm

lemma le_pymax {mags : List ℚ} : ∀ m ∈ mags, m ≤ pymax mags := by
  intro m hm
  cases mags with
  | nil => exact absurd hm (List.not_mem_nil m)
  | cons x xs => exact le_foldl_max xs x m hm

lemma pymin_le_pymax {mags : List ℚ} (h : mags ≠ []) :
    pymin mags ≤ pymax mags := by
  cases mags with
  | nil => exact absurd rfl h
  | cons x xs =>
    exact le_trans (pymin_le x (List.mem_cons_self x xs))
      (le_pymax x (List.mem_cons_self x xs))

lemma mag_edges_cover (w : ℚ) (hw : 0 < w) (mags : List ℚ)
    (hne : mags ≠ []) :
    ∀ m ∈ mags, (mag_edges w mags).getD 0 0 ≤ m
      ∧ m ≤ (mag_edges w mags).getD ((mag_edges w mags).length - 1) 0 := by
  intro m hm
  have hwne : w ≠ 0 := ne_of_gt hw
  have hlolt : ⌊pymin mags / w⌋ < ⌈pymax mags / w⌉ + 1 := by
    have h1 : ⌊pymin mags / w⌋ ≤ ⌈pymin mags / w⌉ := Int.floor_le_ceil _
    have h2 : ⌈pymin mags / w⌉ ≤ ⌈pymax mags / w⌉ :=
      Int.ceil_le_ceil ((div_le_div_iff_of_pos_right hw).mpr (pymin_le_pymax hne))
    omega
  have hlen : (mag_edges w mags).length
      = ((⌈pymax mags / w⌉ + 1) - ⌊pymin mags / w⌋).toNat := by
    simp [mag_edges]
  have hlenpos : 0 < (mag_edges w mags).length := by
    rw [hlen]
    omega
  constructor
  · have h0 : (mag_edges w mags).getD 0 0
        = w * ((⌊pymin mags / w⌋ : ℚ) + (0:ℕ)) := by
      rw [mag_edges]
      exact arange_map_getD _ _ 0 (by rw [mag_edges] at hlenpos; simpa using hlenpos)
    rw [h0]
    push_cast
    rw [add_zero]
    have hfloor : (⌊pymin mags / w⌋ : ℚ) ≤ pymin mags / w := Int.floor_le _
    have : w * (⌊pymin mags / w⌋ : ℚ) ≤ w * (pymin mags / w) :=
      mul_le_mul_of_nonneg_left hfloor (le_of_lt hw)
    rw [mul_div_cancel₀ _ hwne] at this
    exact le_trans this (pymin_le m hm)
  · have hidx : (mag_edges w mags).length - 1
        < ((⌈pymax mags / w⌉ + 1) - ⌊pymin mags / w⌋).toNat := by
      rw [hlen]
      omega
    have hlast : (mag_edges w mags).getD ((mag_edges w mags).length - 1) 0
        = w * ((⌊pymin mags / w⌋ : ℚ)
            + (((mag_edges w mags).length - 1 : ℕ) : ℚ)) := by
      rw [mag_edges]
      exact arange_map_getD _ _ _ (by rw [← hlen]; rw [mag_edges] at hidx hlenpos ⊢; simpa using hidx)
    rw [hlast]
    have hcast : (⌊pymin mags / w⌋ : ℚ)
        + (((mag_edges w mags).length - 1 : ℕ) : ℚ)
        = ((⌈pymax mags / w⌉ : ℤ) : ℚ) := by
      have hz : (⌊pymin mags / w⌋ : ℤ)
          + (((mag_edges w mags).length - 1 : ℕ) : ℤ)
          = ⌈pymax mags / w⌉ := by
        rw [hlen]
        omega
      push_cast [← hz]
      ring
    rw [hcast]
    have hceil : pymax mags / w ≤ (⌈pymax mags / w⌉ : ℚ) := Int.le_ceil _
    have hmul : w * (pymax mags / w) ≤ w * (⌈pymax mags / w⌉ : ℚ) :=
      mul_le_mul_of_nonneg_left hceil (le_of_lt hw)
    rw [mul_div_cancel₀ _ hwne] at hmul
    exact le_trans (le_pymax m hm) hmul

lemma dist_edges_cover (w : ℚ) (hw : 0 < w) (maxdist : ℚ)
    (hmd : 0 ≤ maxdist) :
    ∀ d, 0 ≤ d → d ≤ maxdist →
      (dist_edges w maxdist).getD 0 0 ≤ d
      ∧ d ≤ (dist_edges w maxdist).getD ((dist_edges w maxdist).length - 1) 0 := by
  intro d hd0 hdm
  have hwne : w ≠ 0 := ne_of_gt hw
  have hceilnn : 0 ≤ ⌈maxdist / w⌉ :=
    Int.ceil_nonneg (div_nonneg hmd (le_of_lt hw))
  have hlen : (dist_edges w maxdist).length = (⌈maxdist / w⌉ + 1).toNat := by
    simp [dist_edges]
  have hlenpos : 0 < (dist_edges w maxdist).length := by
    rw [hlen]
    omega
  constructor
  · have h0 : (dist_edges w maxdist).getD 0 0 = w * ((0:ℕ) : ℚ) := by
      rw [dist_edges]
      exact arange_map_getD _ _ 0 (by rw [dist_edges] at hlenpos; simpa using hlenpos)
    rw [h0]
    push_cast
    rw [mul_zero]
    exact hd0
  · have hidx : (dist_edges w maxdist).length - 1 < (⌈maxdist / w⌉ + 1).toNat := by
      rw [hlen]
      omega
    have hlast : (dist_edges w maxdist).getD ((dist_edges w maxdist).length - 1) 0
        = w * (((dist_edges w maxdist).length - 1 : ℕ) : ℚ) := by
      rw [dist_edges]
      exact arange_map_getD _ _ _
        (by simp only [List.length_map, List.length_range]; omega)
    rw [hlast]
    have hcast : (((dist_edges w maxdist).length - 1 : ℕ) : ℚ)
        = ((⌈maxdist / w⌉ : ℤ) : ℚ) := by
      have hz : (((dist_edges w maxdist).length - 1 : ℕ) : ℤ)
          = ⌈maxdist / w⌉ := by
        rw [hlen]
        omega
      push_cast [← hz]
      ring
    rw [hcast]
    have hceil : maxdist / w ≤ (⌈maxdist / w⌉ : ℚ) := Int.le_ceil _
    have hmul : w * (maxdist / w) ≤ w * (⌈maxdist / w⌉ : ℚ) :=
      mul_le_mul_of_nonneg_left hceil (le_of_lt hw)
    rw [mul_div_cancel₀ _ hwne] at hmul
    exact le_trans hdm hmul

lemma digitize_le_length (x : ℚ) (bins : List ℚ) :
    digitize x bins ≤ bins.length :=
  List.length_filter_le _ bins

lemma digitize_pos (x : ℚ) (bins : List ℚ) (hne : bins ≠ [])
    (hfirst : bins.getD 0 0 ≤ x) : 1 ≤ digitize x bins := by
  cases bins with
  | nil => exact absurd rfl hne
  | cons b rest =>
    rw [List.getD_cons_zero] at hfirst
    unfold digitize
    rw [List.filter_cons, if_pos (by simpa using hfirst)]
    simp

lemma digitize_all (x : ℚ) (bins : List ℚ) (hall : ∀ b ∈ bins, b ≤ x) :
    digitize x bins = bins.length := by
  unfold digitize
  rw [List.filter_eq_self.mpr (fun b hb => by simpa using hall b hb)]

lemma sorted_le_last (bins : List ℚ) (hs : bins.Sorted (· < ·)) :
    ∀ b ∈ bins, b ≤ bins.getD (bins.length - 1) 0 := by
  induction bins with
  | nil =>
    intro b hb
    exact absurd hb (List.not_mem_nil b)
  | cons b0 rest ih =>
    intro b hb
    cases rest with
    | nil =>
      rcases List.mem_cons.mp hb with rfl | hb
      · simp
      · exact absurd hb (List.not_mem_nil b)
    | cons r1 rrest =>
      have hlen : (b0 :: r1 :: rrest).length - 1 = (r1 :: rrest).length := by
        simp
      rw [hlen]
      have hlen2 : (r1 :: rrest).length = ((r1 :: rrest).length - 1) + 1 := by
        simp
      rw [hlen2, List.getD_cons_succ]
      have htail : (r1 :: rrest).Sorted (· < ·) := hs.of_cons
      rcases List.mem_cons.mp hb with rfl | hb
      · have hmem : (r1 :: rrest).getD ((r1 :: rrest).length - 1) 0
            ∈ r1 :: rrest := by
          rw [List.getD_eq_getElem _ 0 (by simp)]
          exact List.getElem_mem _
        have := (List.pairwise_cons.mp hs).1 _ hmem
        exact le_of_lt this
      · exact ih htail b hb

lemma digitize_half_open (x : ℚ) (bins : List ℚ)
    (hs : bins.Sorted (· < ·)) (i : ℕ) (hi : i + 1 < bins.length)
    (hx1 : bins.getD i 0 ≤ x) (hx2 : x < bins.getD (i + 1) 0) :
    digitize x bins = i + 1 := by
  induction i generalizing bins with
  | zero =>
    match bins, hi with
    | b0 :: b1 :: rest, _ =>
      rw [List.getD_cons_zero] at hx1
      rw [List.getD_cons_succ, List.getD_cons_zero] at hx2
      unfold digitize
      rw [List.filter_cons, if_pos (by simpa using hx1)]
      rw [List.length_cons]
      have hnil : (b1 :: rest).filter (fun b => decide (b ≤ x)) = [] := by
        rw [List.filter_eq_nil_iff]
        intro b hb
        have hb1 : b1 ≤ b := by
          rcases List.mem_cons.mp hb with rfl | hb
          · exact le_refl b
          · exact le_of_lt ((List.pairwise_cons.mp hs.of_cons).1 b hb)
        simp only [decide_eq_true_eq]
        intro hle
        exact absurd (lt_of_lt_of_le hx2 hb1) (not_lt.mpr hle)
      rw [hnil]
      simp
  | succ i ih =>
    match bins, hi with
    | b0 :: rest, hi =>
      rw [List.getD_cons_succ] at hx1
      rw [List.getD_cons_succ] at hx2
      have hrestlen : i + 1 < rest.length := by
        simpa using hi
      have hb0 : b0 ≤ x := by
        have hmem : rest.getD i 0 ∈ rest := by
          rw [List.getD_eq_getElem _ 0 (by omega)]
          exact List.getElem_mem _
        exact le_trans (le_of_lt ((List.pairwise_cons.mp hs).1 _ hmem)) hx1
      unfold digitize
      rw [List.filter_cons, if_pos (by simpa using hb0), List.length_cons]
      have := ih rest hs.of_cons hrestlen hx1 hx2
      unfold digitize at this
      rw [this]

/-- C5: the magnitude and distance edges of get_edges_shapedic cover every
input value, the binning of build_disagg_matrix uses half-open intervals
[low, high) whose index always lands inside the matrix for in-range
values, and a value at the exact upper edge of the last bin is assigned
the last bin. -/
theorem bin_coverage (w : ℚ) (mags : List ℚ) (maxdist x : ℚ)
    (bins : List ℚ) (hw : 0 < w) (hne : mags ≠ [])
    (hmd : 0 ≤ maxdist) (hs : bins.Sorted (· < ·)) (hlen : 2 ≤ bins.length) :
    (∀ m ∈ mags, (mag_edges w mags).getD 0 0 ≤ m
      ∧ m ≤ (mag_edges w mags).getD ((mag_edges w mags).length - 1) 0)
    ∧ (∀ d, 0 ≤ d → d ≤ maxdist →
        (dist_edges w maxdist).getD 0 0 ≤ d
        ∧ d ≤ (dist_edges w maxdist).getD ((dist_edges w maxdist).length - 1) 0)
    ∧ (bins.getD 0 0 ≤ x → x ≤ bins.getD (bins.length - 1) 0 →
        0 ≤ build_bin_idx x bins
        ∧ build_bin_idx x bins ≤ (bins.length : ℤ) - 2)
    ∧ (∀ i, i + 1 < bins.length → bins.getD i 0 ≤ x →
        x < bins.getD (i + 1) 0 → build_bin_idx x bins = i)
    ∧ (x = bins.getD (bins.length - 1) 0 →
        build_bin_idx x bins = (bins.length : ℤ) - 2) := by
  refine ⟨mag_edges_cover w hw mags hne, dist_edges_cover w hw maxdist hmd,
    ?_, ?_, ?_⟩
  · intro h1 h2
    have hd1 : 1 ≤ digitize x bins :=
      digitize_pos x bins (by intro h; rw [h] at hlen; simp at hlen) h1
    have hd2 : digitize x bins ≤ bins.length := digitize_le_length x bins
    unfold build_bin_idx
    by_cases he : (digitize x bins : ℤ) - 1 = (bins.length : ℤ) - 1
    · rw [if_pos he]
      omega
    · rw [if_neg he]
      omega
  · intro i hi hx1 hx2
    have hd := digitize_half_open x bins hs i hi hx1 hx2
    unfold build_bin_idx
    rw [hd]
    have hne2 : ¬ ((i:ℤ) + 1 - 1 = (bins.length : ℤ) - 1) := by
      omega
    push_cast
    push_cast at hne2
    rw [if_neg hne2]
    omega
  · intro hx
    have hall : ∀ b ∈ bins, b ≤ x := by
      intro b hb
      rw [hx]
      exact sorted_le_last bins hs b hb
    have hd := digitize_all x bins hall
    unfold build_bin_idx
    rw [hd, if_pos rfl]
    omega

/-- Witness for C5: magnitudes 4.6 and 6.05 with bin width 0.5, distances
up to 96 km with bin width 10 km, and the bins [0, 1, 2] probed at an
interior boundary and at the upper edge of the last bin. -/
theorem bin_coverage_witness :
    ((13:ℚ)/2 ∈ [(23:ℚ)/5, 121/20, 13/2] ∧
      (mag_edges (1/2) [(23:ℚ)/5, 121/20, 13/2]).getD 0 0 ≤ 13/2)
    ∧ build_bin_idx 1 [0, 1, 2] = 1
    ∧ build_bin_idx 2 [0, 1, 2] = 1 := by
  have hsorted : ([0, 1, 2] : List ℚ).Sorted (· < ·) := by
    constructor
    · intro b hb
      rcases List.mem_cons.mp hb with rfl | hb
      · norm_num
      · rcases List.mem_cons.mp hb with rfl | hb
        · norm_num
        · exact absurd hb (List.not_mem_nil b)
    · constructor
      · intro b hb
        rcases List.mem_cons.mp hb with rfl | hb
        · norm_num
        · exact absurd hb (List.not_mem_nil b)
      · simp
  have h := bin_coverage (1/2) [(23:ℚ)/5, 121/20, 13/2] 96 2 [0, 1, 2]
    (by norm_num) (by simp) (by norm_num) hsorted (by norm_num)
  have h1 := bin_coverage (1/2) [(23:ℚ)/5, 121/20, 13/2] 96 1 [0, 1, 2]
    (by norm_num) (by simp) (by norm_num) hsorted (by norm_num)
  have hmem : (13:ℚ)/2 ∈ [(23:ℚ)/5, 121/20, 13/2] := by
    simp only [List.mem_cons]
    norm_num
  have htie := h.2.2.2.2 (by norm_num)
  have hhalf := h1.2.2.2.1 1 (by norm_num) (by norm_num) (by norm_num)
  refine ⟨⟨hmem, (h.1 (13/2) hmem).1⟩, ?_, ?_⟩
  · rw [hhalf]
    norm_num
  · rw [htie]
    norm_num

/-! ## Weighted task partitioning (calculators/classical.py,
classical_split_filter)

Python source of the partitioning logic:

    blocks = list(block_splitter(sources, maxw, get_weight))
    if not blocks:
        yield ...empty...; return
    heavy = []
    light = list(blocks[-1])
    for block in blocks[:-1]:
        if block.weight < minw:   # extend light sources
            light.extend(block)
        else:                     # heavy block, turn it into a subtask
            heavy.append(...); yield classical, block, ...
    yield classical(light, ...)

The yielded subtasks are the heavy blocks; the light block is processed
inline by the same call. -/

/-- A weighted source. -/
structure Source where
  id : ℕ
  weight : ℚ
deriving DecidableEq

/-- Total weight of a block. -/
def blockWeight (b : List Source) : ℚ := (b.map Source.weight).sum

/-- Modelled from the spec: baselib.general.block_splitter
(openquake.baselib is not under src/) accumulates items greedily,
appending to the current block until adding the next item would exceed
max_weight, then starting a new block; every item enters some block, so a
single item heavier than the threshold forms a block on its own. -/
def block_splitter_aux (maxw : ℚ) :
    List Source → List Source → ℚ → List (List Source)
  | [], cur, _ => if cur.isEmpty then [] else [cur]
  | s :: rest, cur, curw =>
    if cur.isEmpty then block_splitter_aux maxw rest [s] s.weight
    else if maxw < curw + s.weight then
      cur :: block_splitter_aux maxw rest [s] s.weight
    else block_splitter_aux maxw rest (cur ++ [s]) (curw + s.weight)

/-- Entry point of the modelled block_splitter. -/
def block_splitter (maxw : ℚ) (srcs : List Source) : List (List Source) :=
  block_splitter_aux maxw srcs [] 0

/-- Shallow embedding of the partitioning logic of classical_split_filter
(after the optional source splitting): the first component holds the
heavy blocks yielded as independent subtasks, the second the final light
block processed inline. -/
def classical_split_filter (minw maxw : ℚ) (srcs : List Source) :
    List (List Source) × List Source :=
  let blocks := block_splitter maxw srcs
  match blocks.getLast? with
  | none => ([], [])
  | some lastb =>
    let rest := blocks.dropLast
    (rest.filter (fun b => ¬ blockWeight b < minw),
     lastb ++ (rest.filter (fun b => blockWeight b < minw)).flatten)

lemma block_splitter_aux_flatten (maxw : ℚ) (srcs : List Source) :
    ∀ (cur : List Source) (curw : ℚ),
      (block_splitter_aux maxw srcs cur curw).flatten = cur ++ srcs := by
  induction srcs with
  | nil =>
    intro cur curw
    unfold block_splitter_aux
    by_cases hc : cur.isEmpty
    · rw [if_pos hc, List.isEmpty_iff.mp hc]
      rfl
    · rw [if_neg hc]
      simp
  | cons s rest ih =>
    intro cur curw
    unfold block_splitter_aux
    by_cases hc : cur.isEmpty
    · rw [if_pos hc, List.isEmpty_iff.mp hc, ih [s] s.weight]
      rfl
    · rw [if_neg hc]
      by_cases hgt : maxw < curw + s.weight
      · rw [if_pos hgt, List.flatten_cons, ih [s] s.weight]
        rfl
      · rw [if_neg hgt, ih (cur ++ [s]) (curw + s.weight)]
        simp

lemma blockWeight_append (b1 b2 : List Source) :
    blockWeight (b1 ++ b2) = blockWeight b1 + blockWeight b2 := by
  unfold blockWeight
  rw [List.map_append, List.sum_append]

lemma block_splitter_aux_bound (maxw : ℚ) (srcs : List Source)
    (hw : ∀ s ∈ srcs, 0 ≤ s.weight) :
    ∀ (cur : List Source) (curw : ℚ), curw = blockWeight cur →
      (2 ≤ cur.length → blockWeight cur ≤ maxw) →
      ∀ b ∈ block_splitter_aux maxw srcs cur curw,
        2 ≤ b.length → blockWeight b ≤ maxw := by
  induction srcs with
  | nil =>
    intro cur curw hcur hinv b hb hb2
    unfold block_splitter_aux at hb
    by_cases hc : cur.isEmpty
    · rw [if_pos hc] at hb
      exact absurd hb (List.not_mem_nil b)
    · rw [if_neg hc] at hb
      rcases List.mem_cons.mp hb with rfl | hb
      · exact hinv hb2
      · exact absurd hb (List.not_mem_nil b)
  | cons s rest ih =>
    intro cur curw hcur hinv b hb hb2
    have hwrest : ∀ t ∈ rest, 0 ≤ t.weight :=
      fun t ht => hw t (List.mem_cons_of_mem s ht)
    have hws : 0 ≤ s.weight := hw s (List.mem_cons_self s rest)
    unfold block_splitter_aux at hb
    by_cases hc : cur.isEmpty
    · rw [if_pos hc] at hb
      refine ih hwrest [s] s.weight ?_ ?_ b hb hb2
      · unfold blockWeight
        simp
      · intro h2
        simp at h2
    · rw [if_neg hc] at hb
      by_cases hgt : maxw < curw + s.weight
      · rw [if_pos hgt] at hb
        rcases List.mem_cons.mp hb with rfl | hb
        · exact hinv hb2
        · refine ih hwrest [s] s.weight ?_ ?_ b hb hb2
          · unfold blockWeight
            simp
          · intro h2
            simp at h2
      · rw [if_neg hgt] at hb
        refine ih hwrest (cur ++ [s]) (curw + s.weight) ?_ ?_ b hb hb2
        · rw [blockWeight_append, hcur]
          unfold blockWeight
          simp
        · intro _
          rw [blockWeight_append, ← hcur]
          have : blockWeight [s] = s.weight := by
            unfold blockWeight
            simp
          rw [this]
          exact not_lt.mp hgt

lemma blockWeight_flatten (L : List (List Source)) :
    blockWeight L.flatten = (L.map blockWeight).sum := by
  induction L with
  | nil => rfl
  | cons b L ih =>
    rw [List.flatten_cons, blockWeight_append, ih, List.map_cons,
      List.sum_cons]

lemma block_splitter_flatten (maxw : ℚ) (srcs : List Source) :
    (block_splitter maxw srcs).flatten = srcs :=
  block_splitter_aux_flatten maxw srcs [] 0

lemma block_splitter_bound (maxw : ℚ) (srcs : List Source)
    (hw : ∀ s ∈ srcs, 0 ≤ s.weight) :
    ∀ b ∈ block_splitter maxw srcs, 2 ≤ b.length → blockWeight b ≤ maxw :=
  block_splitter_aux_bound maxw srcs hw [] 0 rfl (by intro h; simp at h)

/-- C6 amended: classical_split_filter partitions the sources exactly into
the yielded heavy blocks and the final light block (so the weights add up
to the total weight), a yielded heavy block always weighs at least
min_weight, and a yielded heavy block with at least two sources never
exceeds the splitting threshold (a block can exceed it only when it is a
single source heavier than the threshold). -/
theorem partitioner_invariants (minw maxw : ℚ) (srcs : List Source)
    (hw : ∀ s ∈ srcs, 0 ≤ s.weight) :
    ((classical_split_filter minw maxw srcs).1.flatten
        ++ (classical_split_filter minw maxw srcs).2).Perm srcs
    ∧ ((classical_split_filter minw maxw srcs).1.map blockWeight).sum
        + blockWeight (classical_split_filter minw maxw srcs).2
        = (srcs.map Source.weight).sum
    ∧ (∀ b ∈ (classical_split_filter minw maxw srcs).1,
        minw ≤ blockWeight b)
    ∧ (∀ b ∈ (classical_split_filter minw maxw srcs).1,
        2 ≤ b.length → blockWeight b ≤ maxw) := by
  have hflat := block_splitter_flatten maxw srcs
  have hperm : ((classical_split_filter minw maxw srcs).1.flatten
      ++ (classical_split_filter minw maxw srcs).2).Perm srcs := by
    cases hL : (block_splitter maxw srcs).getLast? with
    | none =>
      have hnil : block_splitter maxw srcs = [] :=
        List.getLast?_eq_none_iff.mp hL
      have hsrcs : srcs = [] := by
        rw [← hflat, hnil]
        rfl
      simp only [classical_split_filter, hL]
      simp [hsrcs]
    | some lastb =>
      have hne : block_splitter maxw srcs ≠ [] := by
        intro h
        rw [h] at hL
        exact absurd hL (by simp)
      have hlastb : (block_splitter maxw srcs).getLast hne = lastb := by
        have := List.getLast?_eq_getLast (block_splitter maxw srcs) hne
        rw [hL] at this
        exact (Option.some.inj this).symm
      have hdec : (block_splitter maxw srcs).dropLast ++ [lastb]
          = block_splitter maxw srcs := by
        rw [← hlastb]
        exact List.dropLast_concat_getLast hne
      simp only [classical_split_filter, hL]
      have hfp := List.filter_append_perm
        (fun b => decide (¬ blockWeight b < minw))
        (block_splitter maxw srcs).dropLast
      have hcongr : (block_splitter maxw srcs).dropLast.filter
            (fun b => !(decide (¬ blockWeight b < minw)))
          = (block_splitter maxw srcs).dropLast.filter
            (fun b => blockWeight b < minw) := by
        apply List.filter_congr
        intro b _
        simp [← decide_not, decide_eq_decide, not_lt]
      rw [hcongr] at hfp
      apply List.Perm.trans (List.Perm.append_left _ List.perm_append_comm)
      rw [← List.append_assoc, ← List.flatten_append]
      apply List.Perm.trans (List.Perm.append_right lastb hfp.flatten)
      have : (block_splitter maxw srcs).dropLast.flatten ++ lastb
          = ((block_splitter maxw srcs).dropLast ++ [lastb]).flatten := by
        rw [List.flatten_append]
        simp
      rw [this, hdec, hflat]
  refine ⟨hperm, ?_, ?_, ?_⟩
  · have hsum := (hperm.map Source.weight).sum_eq
    rw [List.map_append, List.sum_append] at hsum
    have h1 : (List.map Source.weight
        (classical_split_filter minw maxw srcs).1.flatten).sum
        = ((classical_split_filter minw maxw srcs).1.map blockWeight).sum :=
      blockWeight_flatten _
    rw [← hsum, h1]
    rfl
  · intro b hb
    cases hL : (block_splitter maxw srcs).getLast? with
    | none =>
      simp only [classical_split_filter, hL] at hb
      exact absurd hb (List.not_mem_nil b)
    | some lastb =>
      simp only [classical_split_filter, hL] at hb
      have := (List.mem_filter.mp hb).2
      simp only [decide_eq_true_eq] at this
      exact not_lt.mp this
  · intro b hb hb2
    cases hL : (block_splitter maxw srcs).getLast? with
    | none =>
      simp only [classical_split_filter, hL] at hb
      exact absurd hb (List.not_mem_nil b)
    | some lastb =>
      simp only [classical_split_filter, hL] at hb
      have hmem : b ∈ block_splitter maxw srcs :=
        List.dropLast_subset _ (List.mem_of_mem_filter hb)
      exact block_splitter_bound maxw srcs hw b hmem hb2

/-- C6 counterexample: with min_weight 1 and max_weight 2 (threshold
max_weight/2 = 1 in the unsplit branch), a single source of weight 10
is yielded as a heavy block whose weight exceeds max_weight = 2. -/
theorem partitioner_counterexample :
    (classical_split_filter 1 (2/2) [⟨0, 10⟩, ⟨1, 1⟩]).1 = [[⟨0, 10⟩]]
    ∧ 2 < blockWeight [⟨0, 10⟩] := by
  constructor
  · norm_num [classical_split_filter, block_splitter, block_splitter_aux,
      blockWeight]
  · norm_num [blockWeight]

/-- Witness for the amended C6 on three sources of weights 3, 1, 1 with
min_weight 2 and threshold 4. -/
theorem partitioner_invariants_witness :
    ((classical_split_filter 2 4 [⟨0, 3⟩, ⟨1, 1⟩, ⟨2, 1⟩]).1.flatten
        ++ (classical_split_filter 2 4 [⟨0, 3⟩, ⟨1, 1⟩, ⟨2, 1⟩]).2).Perm
      [⟨0, 3⟩, ⟨1, 1⟩, ⟨2, 1⟩]
    ∧ (∀ b ∈ (classical_split_filter 2 4 [⟨0, 3⟩, ⟨1, 1⟩, ⟨2, 1⟩]).1,
        2 ≤ blockWeight b) := by
  have h := partitioner_invariants 2 4 [⟨0, 3⟩, ⟨1, 1⟩, ⟨2, 1⟩]
    (by intro t ht
        rcases List.mem_cons.mp ht with rfl | ht
        · norm_num
        · rcases List.mem_cons.mp ht with rfl | ht
          · norm_num
          · rcases List.mem_cons.mp ht with rfl | ht
            · norm_num
            · exact absurd ht (List.not_mem_nil t))
  exact ⟨h.1, h.2.2.1⟩

/-! ## Disaggregation matrix size ceiling
(calculators/disaggregation.py, save_bin_edges and full_disaggregation)

Python source of the ceiling check:

    shape = [len(bin) - 1 for bin in (b[0], b[1], b[2][0], b[3][0], b[4])] + [T]
    matrix_size = numpy.prod(shape)  # 6D
    if matrix_size > 1E6:
        raise ValueError('The disaggregation matrix is too large ...')

full_disaggregation calls save_bin_edges() before compute(), which is the
method that builds and submits the disaggregation tasks; the pipeline is
modelled as save_bin_edges followed by the task submission, so a ceiling
violation aborts before any task exists. -/

/-- The six families of disaggregation bin edges (lon/lat are per
site). -/
structure BinEdges where
  mag : List ℚ
  dist : List ℚ
  lon : List (List ℚ)
  lat : List (List ℚ)
  eps : List ℚ
  trts : List String

/-- The six bin dimensions of save_bin_edges: magnitude, distance,
longitude and latitude of the first site, epsilon, and the number of
tectonic region types. -/
def matrix_shape (b : BinEdges) : List ℕ :=
  [b.mag.length - 1, b.dist.length - 1,
   (b.lon.getD 0 []).length - 1, (b.lat.getD 0 []).length - 1,
   b.eps.length - 1, b.trts.length]

/-- Shallow embedding of DisaggregationCalculator.save_bin_edges: raise
ValueError when the matrix size exceeds the 1E6 ceiling. -/
def save_bin_edges (b : BinEdges) : Except String Unit :=
  if 1000000 < (matrix_shape b).prod then
    Except.error "The disaggregation matrix is too large: fix the binning!"
  else Except.ok ()

/-- Shallow embedding of the control flow of full_disaggregation:
save_bin_edges runs first, and only when it returns normally does
compute() submit the disaggregation tasks (abstracted as the task
list). -/
def full_disaggregation (b : BinEdges) (tasks : List (ℕ × String)) :
    Except String (List (ℕ × String)) :=
  match save_bin_edges b with
  | Except.error e => Except.error e
  | Except.ok _ => Except.ok tasks

/-- C9: when the product of the six bin dimensions exceeds the 1E6
ceiling, save_bin_edges raises the fatal ValueError and
full_disaggregation aborts without submitting any disaggregation task. -/
theorem matrix_ceiling_fail_fast (b : BinEdges)
    (tasks : List (ℕ × String)) (h : 1000000 < (matrix_shape b).prod) :
    save_bin_edges b = Except.error
      "The disaggregation matrix is too large: fix the binning!"
    ∧ full_disaggregation b tasks = Except.error
      "The disaggregation matrix is too large: fix the binning!"
    ∧ ∀ ts, full_disaggregation b tasks ≠ Except.ok ts := by
  have hsave : save_bin_edges b = Except.error
      "The disaggregation matrix is too large: fix the binning!" := by
    unfold save_bin_edges
    rw [if_pos h]
  refine ⟨hsave, ?_, ?_⟩
  · unfold full_disaggregation
    rw [hsave]
  · intro ts
    unfold full_disaggregation
    rw [hsave]
    simp

/-- An oversized bin-edge configuration: 100 x 100 x 100 x 2 x 1 x 1
cells. -/
def bC9 : BinEdges :=
  ⟨List.replicate 101 0, List.replicate 101 0, [List.replicate 101 0],
   [List.replicate 3 0], List.replicate 2 0, ["Active Shallow Crust"]⟩

/-- Witness for C9: the 2,000,000-cell configuration aborts before any
task. -/
theorem matrix_ceiling_fail_fast_witness :
    full_disaggregation bC9 [(0, "6.05")] = Except.error
      "The disaggregation matrix is too large: fix the binning!" :=
  (matrix_ceiling_fail_fast bC9 [(0, "6.05")]
    (by norm_num [matrix_shape, bC9])).2.1

end OQ
